import Mathlib

/-!
Verification of the Pacman AI agent decision engine (`ai_agent.py`).

The embedding models node positions as integer pairs (node identity in the
source is the integer-truncated position, and maze node positions are exact
integer multiples of the tile size, so a node's key coincides with its
position).  Distances are computed exactly over `Int`; the squared-distance
thresholds used by the source (`(1.5 * TILEWIDTH) ** 2`, `(2 * TILEWIDTH) ** 2`
and so on) are exact integers for `TILEWIDTH = 16`, so the comparisons agree
with the source's floating-point comparisons on these inputs.
-/

namespace PacAI

/-- Directions, from `constants.py` (UP, LEFT, DOWN, RIGHT and the neutral
STOP). -/
inductive Direction where
  | UP | LEFT | DOWN | RIGHT | STOP
  deriving DecidableEq, Repr

open Direction

/-- Entity classes that may appear in a node's per-direction access list. -/
inductive Entity where
  | PACMAN | BLINKY | PINKY | INKY | CLYDE | FRUIT
  deriving DecidableEq, Repr

/-- Ghost behaviour modes, from `constants.py`.  `SCATTER` and `CHASE` are the
hostile modes, `FREIGHT` is frightened, `SPAWN` is spawn-returning. -/
inductive GhostMode where
  | SCATTER | CHASE | FREIGHT | SPAWN
  deriving DecidableEq, Repr

/-- A position / node key: integer tile coordinates times the tile size. -/
abbrev Pos := Int × Int

/-- `TILEWIDTH` from `constants.py`. -/
def TILEWIDTH : Int := 16

/-- Squared difference of two positions: `(a - b).magnitudeSquared()` from
`vector.py`. -/
def distSq (a b : Pos) : Int := (a.1 - b.1) ^ 2 + (a.2 - b.2) ^ 2

/-- Per-direction data of one maze node: the optional neighbor (by key) and
the list of entity classes allowed through that edge (`node.neighbors` and
`node.access`). -/
structure NodeData where
  neighbor : Direction → Option Pos
  access : Direction → List Entity

/-- The static maze graph: a finite association of node keys to node data
(the external `NodeGroup`). -/
structure Graph where
  nodes : List (Pos × NodeData)

/-- Association-list lookup used for the node table. -/
def lookupNode : List (Pos × NodeData) → Pos → Option NodeData
  | [], _ => none
  | (q, nd) :: rest, p => if q = p then some nd else lookupNode rest p

/-- `AIAgent.DIRECTION_ORDER`: the fixed canonical iteration order. -/
def DIRECTION_ORDER : List Direction := [UP, LEFT, DOWN, RIGHT]

/-- `AIAgent.get_neighbors`: valid neighboring nodes paired with their
direction, in canonical order, filtered to edges Pacman may traverse. -/
def get_neighbors (g : Graph) (p : Pos) : List (Pos × Direction) :=
  match lookupNode g.nodes p with
  | none => []
  | some nd =>
      DIRECTION_ORDER.filterMap fun d =>
        match nd.neighbor d with
        | some q => if Entity.PACMAN ∈ nd.access d then some (q, d) else none
        | none => none

/-- `AIAgent.is_at_goal`: squared-distance test with threshold
`(TILEWIDTH * 1.5) ** 2 = 576`. -/
def is_at_goal (p target : Pos) : Bool :=
  distSq p target < (TILEWIDTH * 3 / 2) ^ 2

/-- A pellet, reduced to the only field the agent reads: its position. -/
structure Pellet where
  position : Pos
  deriving DecidableEq, Repr

/-- A ghost as the agent observes it: position and current behaviour mode
(`ghost.position`, `ghost.mode.current`). -/
structure Ghost where
  position : Pos
  mode : GhostMode
  deriving DecidableEq, Repr

/-- The danger added for one non-spawn ghost at squared distance `dsq`,
the banded tiers of `AStarAgent.get_ghost_danger`. -/
def dangerBand (dsq : Int) : Int :=
  if dsq < (2 * TILEWIDTH) ^ 2 then 100000
  else if dsq < (4 * TILEWIDTH) ^ 2 then 50000
  else if dsq < (6 * TILEWIDTH) ^ 2 then 10000
  else if dsq < (8 * TILEWIDTH) ^ 2 then 1000
  else if dsq < (10 * TILEWIDTH) ^ 2 then 100
  else 0

/-- `AStarAgent.get_ghost_danger`: total danger of a position, summed over
all ghosts, skipping ghosts in `SPAWN` mode. -/
def get_ghost_danger (ghosts : List Ghost) (p : Pos) : Int :=
  match ghosts with
  | [] => 0
  | gh :: rest =>
      (if gh.mode = GhostMode.SPAWN then 0
       else dangerBand (distSq gh.position p)) + get_ghost_danger rest p

/-- The controlled character as the agent observes it (`pacman.position`,
`pacman.node`, `pacman.target`). -/
structure PacmanState where
  position : Pos
  node : Option Pos
  target : Option Pos
  deriving DecidableEq, Repr

/-- `AIAgent.get_current_node`: the effective node, the in-transit target if
set and different from the current node, else the current node. -/
def get_current_node (pac : PacmanState) : Option Pos :=
  match pac.target with
  | some t => if some t ≠ pac.node then some t else pac.node
  | none => pac.node

/-- The world snapshot an agent reads during one direction query. -/
structure World where
  graph : Graph
  pellets : List Pellet
  ghosts : List Ghost
  pacman : PacmanState

/-- The agent's private mutable cache (`current_path`, `current_goal`,
`last_node` from `AIAgent.__init__`, plus the subclasses' `last_position`). -/
structure AgentState where
  current_path : List Direction
  current_goal : Option Pos
  last_node : Option Pos
  last_position : Option Pos
  deriving DecidableEq, Repr

/-- The agent cache as built by `AIAgent.__init__` / the subclass
constructors. -/
def initState : AgentState :=
  { current_path := [], current_goal := none, last_node := none,
    last_position := none }

/-- The inner pellet scan of the BFS agent: `for pellet in
self.pellets.pelletList: if self.is_at_goal(node, pellet.position)`. -/
def goalHit (pellets : List Pellet) (p : Pos) : Bool :=
  pellets.any fun pl => is_at_goal p pl.position

/-! ### Termination measure for the search loops

Each loop visits a node at most once; the well-founded measure is the pair
(number of graph nodes not yet visited, length of the pending queue). -/

/-- Number of entries of `L` not yet in `V`. -/
def countNotMem (L V : List Pos) : Nat :=
  (L.filter fun k => decide (k ∉ V)).length

theorem countNotMem_cons_le (L V : List Pos) (p : Pos) :
    countNotMem L (p :: V) ≤ countNotMem L V := by
  induction L with
  | nil => simp [countNotMem]
  | cons a L ih =>
      unfold countNotMem at *
      simp only [List.filter_cons]
      by_cases hpv : a ∈ p :: V
      · rw [if_neg (by simp [hpv])]
        by_cases hv : a ∈ V
        · rw [if_neg (by simp [hv])]
          exact ih
        · rw [if_pos (by simp [hv])]
          exact Nat.le_succ_of_le ih
      · have hv : a ∉ V := fun h => hpv (List.mem_cons_of_mem _ h)
        rw [if_pos (by simp [hpv]), if_pos (by simp [hv])]
        simpa using ih

theorem countNotMem_cons_lt (L V : List Pos) (p : Pos) (hL : p ∈ L)
    (hV : p ∉ V) : countNotMem L (p :: V) < countNotMem L V := by
  induction L with
  | nil => simp at hL
  | cons a L ih =>
      unfold countNotMem at *
      simp only [List.filter_cons]
      by_cases hap : a = p
      · subst hap
        rw [if_neg (by simp), if_pos (by simp [hV])]
        have := countNotMem_cons_le L V a
        unfold countNotMem at this
        simp only [List.length_cons]
        omega
      · have hL' : p ∈ L := by
          rcases List.mem_cons.mp hL with h | h
          · exact absurd h.symm hap
          · exact h
        by_cases hv : a ∈ V
        · rw [if_neg (by simp [hv]), if_neg (by simp [hv])]
          exact ih hL'
        · have hpv : a ∉ p :: V := by
            simp only [List.mem_cons]
            push_neg
            exact ⟨hap, hv⟩
          rw [if_pos (by simp [hpv]), if_pos (by simp [hv])]
          simp only [List.length_cons]
          exact Nat.succ_lt_succ (ih hL')

theorem countNotMem_cons_eq (L V : List Pos) (p : Pos) (hL : p ∉ L) :
    countNotMem L (p :: V) = countNotMem L V := by
  induction L with
  | nil => rfl
  | cons a L ih =>
      have hap : a ≠ p := fun h => hL (h ▸ List.mem_cons_self a L)
      have hL' : p ∉ L := fun h => hL (List.mem_cons_of_mem _ h)
      unfold countNotMem at *
      simp only [List.filter_cons]
      by_cases hv : a ∈ V
      · rw [if_neg (by simp [hv]), if_neg (by simp [hv])]
        exact ih hL'
      · have hpv : a ∉ p :: V := by
          simp only [List.mem_cons]
          push_neg
          exact ⟨hap, hv⟩
        rw [if_pos (by simp [hpv]), if_pos (by simp [hv])]
        simp only [List.length_cons, ih hL']

/-- The node keys of a graph. -/
def Graph.keys (g : Graph) : List Pos := g.nodes.map Prod.fst

/-- Measure first component: graph nodes not yet visited. -/
def unvisitedCount (g : Graph) (V : List Pos) : Nat :=
  countNotMem g.keys V

theorem lookupNode_eq_none (nodes : List (Pos × NodeData)) (p : Pos)
    (h : p ∉ nodes.map Prod.fst) : lookupNode nodes p = none := by
  induction nodes with
  | nil => rfl
  | cons e rest ih =>
      simp only [List.map_cons, List.mem_cons] at h
      push_neg at h
      obtain ⟨e1, e2⟩ := e
      simp only [lookupNode]
      rw [if_neg (fun hh => h.1 hh.symm)]
      exact ih h.2

theorem get_neighbors_of_not_mem (g : Graph) (p : Pos) (h : p ∉ g.keys) :
    get_neighbors g p = [] := by
  unfold get_neighbors
  rw [lookupNode_eq_none g.nodes p h]

/-! ### The BFS agent's search (`BFSAgent.find_path_to_nearest_pellet`) -/

/-- One pass of the BFS neighbor loop: skip visited neighbors, return the
extended path the instant a neighbor satisfies the goal test for any pellet,
otherwise collect the new queue entries.  With `visited = []` and `path = []`
this is also the seeding loop over the start node's neighbors. -/
def bfs_expand (pellets : List Pellet) (visited : List Pos)
    (path : List Direction) :
    List (Pos × Direction) → Sum (List Direction) (List (Pos × List Direction))
  | [] => .inr []
  | (q, d) :: rest =>
      if q ∈ visited then bfs_expand pellets visited path rest
      else if goalHit pellets q then .inl (path ++ [d])
      else
        match bfs_expand pellets visited path rest with
        | .inl ans => .inl ans
        | .inr l => .inr ((q, path ++ [d]) :: l)

/-- The BFS main loop: pop the front entry, skip it if already visited, else
mark it visited and expand its neighbors (returning as soon as a generated
neighbor satisfies the goal test). -/
def bfs_loop (g : Graph) (pellets : List Pellet) :
    List (Pos × List Direction) → List Pos → List Direction
  | [], _ => []
  | (p, path) :: rest, visited =>
      if hp : p ∈ visited then bfs_loop g pellets rest visited
      else
        match h : bfs_expand pellets (p :: visited) path (get_neighbors g p) with
        | .inl ans => ans
        | .inr l => bfs_loop g pellets (rest ++ l) (p :: visited)
termination_by Q V => (unvisitedCount g V, Q.length)
decreasing_by
  · exact Prod.Lex.right _ (by simp)
  · by_cases hk : p ∈ g.keys
    · exact Prod.Lex.left _ _ (countNotMem_cons_lt g.keys visited p hk hp)
    · have hnb : get_neighbors g p = [] := get_neighbors_of_not_mem g p hk
      rw [hnb] at h
      have hl : l = [] := by
        simp only [bfs_expand] at h
        exact (Sum.inr.injEq _ _).mp h.symm
      have hcnt : unvisitedCount g (p :: visited) = unvisitedCount g visited :=
        countNotMem_cons_eq g.keys visited p hk
      rw [hcnt, hl]
      exact Prod.Lex.right _ (by simp)

/-- `BFSAgent.find_path_to_nearest_pellet`: seed the queue with the start
node's neighbors (returning at once if one of them satisfies the goal test),
then run the BFS loop with the start node marked visited. -/
def find_path_to_nearest_pellet (g : Graph) (pellets : List Pellet)
    (start : Option Pos) : List Direction :=
  match start with
  | none => []
  | some s =>
      match bfs_expand pellets [] [] (get_neighbors g s) with
      | .inl ans => ans
      | .inr entries => bfs_loop g pellets entries [s]

/-- `BFSAgent.get_direction`. -/
def bfs_get_direction (w : World) (st : AgentState) : Direction × AgentState :=
  if w.pellets = [] then (STOP, st)
  else
    match get_current_node w.pacman with
    | none => (STOP, st)
    | some cur =>
        let currentPos := w.pacman.position
        let st1 :=
          if some currentPos ≠ st.last_position ∨ st.current_path = [] then
            { st with last_position := some currentPos,
                      current_path :=
                        find_path_to_nearest_pellet w.graph w.pellets
                          (some cur) }
          else st
        match st1.current_path with
        | d :: restPath => (d, { st1 with current_path := restPath })
        | [] =>
            match get_neighbors w.graph cur with
            | (_, d) :: _ => (d, st1)
            | [] => (STOP, st1)

/-! ### The DFS agent's search (`DFSAgent.find_shortest_path_to_pellet`)

Despite the class name, the search is a breadth-first traversal toward the
single pellet; the goal test happens when a node is popped, not when it is
generated. -/

/-- The DFS agent's neighbor loop: skip visited neighbors, collect the rest
as new queue entries with extended paths. -/
def dfs_expand (visited : List Pos) (path : List Direction) :
    List (Pos × Direction) → List (Pos × List Direction)
  | [] => []
  | (q, d) :: rest =>
      if q ∈ visited then dfs_expand visited path rest
      else (q, path ++ [d]) :: dfs_expand visited path rest

/-- The DFS agent's main loop: pop, skip if visited, return the path if the
popped node satisfies the goal test, else expand. -/
def dfs_loop (g : Graph) (target : Pos) :
    List (Pos × List Direction) → List Pos → List Direction
  | [], _ => []
  | (p, path) :: rest, visited =>
      if hp : p ∈ visited then dfs_loop g target rest visited
      else if is_at_goal p target then path
      else
        dfs_loop g target
          (rest ++ dfs_expand (p :: visited) path (get_neighbors g p))
          (p :: visited)
termination_by Q V => (unvisitedCount g V, Q.length)
decreasing_by
  · exact Prod.Lex.right _ (by simp)
  · by_cases hk : p ∈ g.keys
    · exact Prod.Lex.left _ _ (countNotMem_cons_lt g.keys visited p hk hp)
    · have hnb : get_neighbors g p = [] := get_neighbors_of_not_mem g p hk
      have hcnt : unvisitedCount g (p :: visited) = unvisitedCount g visited :=
        countNotMem_cons_eq g.keys visited p hk
      rw [hnb, hcnt]
      exact Prod.Lex.right _ (by simp [dfs_expand])

/-- `DFSAgent.find_shortest_path_to_pellet`: empty result when the start is
missing or the pellet collection is empty; the single pellet is the head of
the collection; "already at goal" is special-cased before anything is
enqueued. -/
def find_shortest_path_to_pellet (g : Graph) (pellets : List Pellet)
    (start : Option Pos) : List Direction :=
  match start with
  | none => []
  | some s =>
      match pellets with
      | [] => []
      | pl :: _ =>
          if is_at_goal s pl.position then []
          else dfs_loop g pl.position [(s, [])] []

/-- `DFSAgent.get_direction`. -/
def dfs_get_direction (w : World) (st : AgentState) : Direction × AgentState :=
  if w.pellets = [] then (STOP, st)
  else
    match get_current_node w.pacman with
    | none => (STOP, st)
    | some cur =>
        let currentPos := w.pacman.position
        let st1 :=
          if some currentPos ≠ st.last_position ∨ st.current_path = [] then
            { st with last_position := some currentPos,
                      current_path :=
                        find_shortest_path_to_pellet w.graph w.pellets
                          (some cur) }
          else st
        match st1.current_path with
        | d :: restPath => (d, { st1 with current_path := restPath })
        | [] =>
            match get_neighbors w.graph cur with
            | (_, d) :: _ => (d, st1)
            | [] => (STOP, st1)

/-! ### The A* agent (`AStarAgent`) -/

/-- `AStarAgent.heuristic`: Manhattan distance. -/
def heuristic (p target : Pos) : Int := |p.1 - target.1| + |p.2 - target.2|

/-- Pop of the binary min-heap used through `heapq`: entries are
`(f, counter, node)` tuples compared lexicographically; the pushed counters
are pairwise distinct, so the pop order is the total order on
`(f, counter)` and the node component never gets compared. -/
def popMinGo : (Int × Nat × Pos) → List (Int × Nat × Pos) →
    ((Int × Nat × Pos) × List (Int × Nat × Pos))
  | best, [] => (best, [])
  | best, e :: rest =>
      if e.1 < best.1 ∨ (e.1 = best.1 ∧ e.2.1 < best.2.1) then
        let r := popMinGo e rest
        (r.1, best :: r.2)
      else
        let r := popMinGo best rest
        (r.1, e :: r.2)

theorem popMinGo_length (b : Int × Nat × Pos) (l : List (Int × Nat × Pos)) :
    (popMinGo b l).2.length = l.length := by
  induction l generalizing b with
  | nil => rfl
  | cons e rest ih =>
      unfold popMinGo
      by_cases hc : e.1 < b.1 ∨ (e.1 = b.1 ∧ e.2.1 < b.2.1)
      · rw [if_pos hc]
        simp [ih]
      · rw [if_neg hc]
        simp [ih]

/-- Association-list lookup modelling the Python dicts `g_scores` and
`came_from`; assignment conses in front, so lookup finds the most recent
binding, matching dict overwrite semantics. -/
def lookupA {α : Type} : List (Pos × α) → Pos → Option α
  | [], _ => none
  | (q, v) :: rest, p => if q = p then some v else lookupA rest p

/-- `AIAgent.reconstruct_path`'s predecessor walk.  The source appends each
direction and reverses once at the end; consing onto the accumulator builds
the reversed list directly.  The source's `while` loop terminates because
`came_from` chains are acyclic on every state the search builds; the fuel
(one more than the table size) covers any acyclic chain, so the embedding
returns the same path on all such states. -/
def reconstruct_go (cameFrom : List (Pos × (Pos × Direction)))
    (startKey : Pos) : Nat → Pos → List Direction → List Direction
  | 0, _, acc => acc
  | fuel + 1, cur, acc =>
      match lookupA cameFrom cur with
      | none => acc
      | some (parent, d) =>
          if parent = startKey then d :: acc
          else reconstruct_go cameFrom startKey fuel parent (d :: acc)

/-- `AIAgent.reconstruct_path`. -/
def reconstruct_path (cameFrom : List (Pos × (Pos × Direction)))
    (startKey goalKey : Pos) : List Direction :=
  if goalKey = startKey then []
  else reconstruct_go cameFrom startKey (cameFrom.length + 1) goalKey []

/-- The A* neighbor loop: skip visited neighbors; relax the tentative score
`g_scores[current] + TILEWIDTH + ghost danger`; on improvement, record score
and predecessor, bump the unique push counter, and push
`(f, counter, node)`.  The `g_scores[current_key]` read always succeeds in
the source (the current node's score is set before it is pushed); `getD 0`
is never exercised on those states. -/
def astar_expand (ghosts : List Ghost) (target : Pos) (visited : List Pos)
    (curKey : Pos) :
    List (Pos × Direction) →
    (List (Pos × Int) × List (Pos × (Pos × Direction)) × Nat ×
      List (Int × Nat × Pos)) →
    (List (Pos × Int) × List (Pos × (Pos × Direction)) × Nat ×
      List (Int × Nat × Pos))
  | [], acc => acc
  | (q, d) :: rest, (gS, cF, counter, pushes) =>
      if q ∈ visited then
        astar_expand ghosts target visited curKey rest (gS, cF, counter, pushes)
      else
        let newG := (lookupA gS curKey).getD 0 + TILEWIDTH +
          get_ghost_danger ghosts q
        let better :=
          match lookupA gS q with
          | none => true
          | some old => decide (newG < old)
        if better then
          let counter' := counter + 1
          astar_expand ghosts target visited curKey rest
            ((q, newG) :: gS, (q, (curKey, d)) :: cF, counter',
              pushes ++ [(newG + heuristic q target, counter', q)])
        else
          astar_expand ghosts target visited curKey rest (gS, cF, counter, pushes)

/-- The A* main loop (`AStarAgent.find_path`'s `while open_set`): pop the
minimal `(f, counter, node)` entry, skip it if visited, return the
reconstructed path if it satisfies the goal test, else relax its
neighbors. -/
def astar_loop (g : Graph) (ghosts : List Ghost) (target : Pos)
    (startKey : Pos) (openSet : List (Int × Nat × Pos))
    (gS : List (Pos × Int)) (cF : List (Pos × (Pos × Direction)))
    (visited : List Pos) (counter : Nat) : List Direction :=
  match openSet with
  | [] => []
  | e :: rest0 =>
      let cur := (popMinGo e rest0).1.2.2
      let rest := (popMinGo e rest0).2
      if hv : cur ∈ visited then
        astar_loop g ghosts target startKey rest gS cF visited counter
      else if is_at_goal cur target then
        reconstruct_path cF startKey cur
      else
        let res := astar_expand ghosts target (cur :: visited) cur
          (get_neighbors g cur) (gS, cF, counter, [])
        astar_loop g ghosts target startKey (rest ++ res.2.2.2) res.1
          res.2.1 (cur :: visited) res.2.2.1
termination_by (unvisitedCount g visited, openSet.length)
decreasing_by
  · exact Prod.Lex.right _ (by
      rw [popMinGo_length]
      simp)
  · by_cases hk : (popMinGo e rest0).1.2.2 ∈ g.keys
    · exact Prod.Lex.left _ _
        (countNotMem_cons_lt g.keys visited _ hk hv)
    · have hnb : get_neighbors g (popMinGo e rest0).1.2.2 = [] :=
        get_neighbors_of_not_mem g _ hk
      have hcnt : unvisitedCount g ((popMinGo e rest0).1.2.2 :: visited) =
          unvisitedCount g visited :=
        countNotMem_cons_eq g.keys visited _ hk
      rw [hnb, hcnt]
      simp only [astar_expand, List.append_nil]
      exact Prod.Lex.right _ (by
        rw [popMinGo_length]
        simp)

/-- `AStarAgent.find_path`: A* from the start node toward the target
position, with ghost danger dominating the edge cost. -/
def find_path (g : Graph) (ghosts : List Ghost) (start : Option Pos)
    (targetPos : Pos) : List Direction :=
  match start with
  | none => []
  | some s =>
      if is_at_goal s targetPos then []
      else astar_loop g ghosts targetPos s [(heuristic s targetPos, 0, s)]
        [(s, 0)] [] [] 0

/-- The scan of `AStarAgent.find_safest_direction`: keep the first neighbor
whose danger is strictly below the running minimum; `none` models the
initial `float('inf')`, below which every danger value compares. -/
def safest_go (ghosts : List Ghost) :
    List (Pos × Direction) → (Direction × Option Int) → (Direction × Option Int)
  | [], acc => acc
  | (q, d) :: rest, (bestDir, lowest) =>
      let danger := get_ghost_danger ghosts q
      let isLower :=
        match lowest with
        | none => true
        | some l => decide (danger < l)
      if isLower then safest_go ghosts rest (d, some danger)
      else safest_go ghosts rest (bestDir, lowest)

/-- `AStarAgent.find_safest_direction`. -/
def find_safest_direction (ghosts : List Ghost) (g : Graph) (cur : Pos) :
    Direction × Option Int :=
  safest_go ghosts (get_neighbors g cur) (STOP, none)

/-- The score `AStarAgent.select_safest_pellet` assigns to one pellet,
scaled by 100: the source compares `danger + dist_to_pacman * 0.01` with a
strict `<`; multiplying both sides by 100 preserves that order exactly and
keeps the arithmetic over `Int`. -/
def pellet_score100 (ghosts : List Ghost) (pacPos : Pos) (pl : Pellet) : Int :=
  100 * get_ghost_danger ghosts pl.position + distSq pl.position pacPos

/-- The scan of `AStarAgent.select_safest_pellet`. -/
def select_go (ghosts : List Ghost) (pacPos : Pos) :
    List Pellet → (Option Pellet × Option Int) → Option Pellet
  | [], acc => acc.1
  | pl :: rest, (best, lowest) =>
      let score := pellet_score100 ghosts pacPos pl
      let isLower :=
        match lowest with
        | none => true
        | some l => decide (score < l)
      if isLower then select_go ghosts pacPos rest (some pl, some score)
      else select_go ghosts pacPos rest (best, lowest)

/-- `AStarAgent.select_safest_pellet`. -/
def select_safest_pellet (w : World) : Option Pellet :=
  match w.pellets with
  | [] => none
  | _ => select_go w.ghosts w.pacman.position w.pellets (none, none)

/-- `node.neighbors.get(direction)` as used by the A* agent's defensive
re-check: the raw neighbor lookup, without the access-permission filter. -/
def raw_neighbor (g : Graph) (p : Pos) (d : Direction) : Option Pos :=
  match lookupNode g.nodes p with
  | none => none
  | some nd => nd.neighbor d

/-- Lines 266-283 of `AStarAgent.get_direction`: deliver the next cached
step after the defensive danger re-check, or fall back to the safest
neighbor. -/
def astar_deliver (w : World) (st : AgentState) (cur : Pos) :
    Direction × AgentState :=
  match st.current_path with
  | d :: restPath =>
      let st1 := { st with current_path := restPath }
      match raw_neighbor w.graph cur d with
      | some nb =>
          if get_ghost_danger w.ghosts nb ≥ 10000 then
            ((find_safest_direction w.ghosts w.graph cur).1,
              { st1 with current_path := [] })
          else (d, st1)
      | none => (d, st1)
  | [] => ((find_safest_direction w.ghosts w.graph cur).1, st)

/-- Lines 249-283 of `AStarAgent.get_direction`: the ordinary (non-override)
part — recompute the path when the sampled position changed or the cache is
empty, then deliver from the cache. -/
def astar_after_danger (w : World) (st : AgentState) (cur : Pos) :
    Direction × AgentState :=
  let currentPos := w.pacman.position
  if some currentPos ≠ st.last_position ∨ st.current_path = [] then
    let st1 := { st with last_position := some currentPos }
    if w.pellets = [] then
      ((find_safest_direction w.ghosts w.graph cur).1, st1)
    else
      let st2 :=
        match select_safest_pellet w with
        | some tp =>
            { st1 with current_path :=
                find_path w.graph w.ghosts (some cur) tp.position }
        | none => st1
      astar_deliver w st2 cur
  else astar_deliver w st cur

/-- `AStarAgent.get_direction`: the immediate-danger override followed by
the ordinary replan-and-deliver cycle. -/
def astar_get_direction (w : World) (st : AgentState) :
    Direction × AgentState :=
  match get_current_node w.pacman with
  | none => (STOP, st)
  | some cur =>
      let currentDanger := get_ghost_danger w.ghosts w.pacman.position
      if currentDanger ≥ 10000 then
        let fs := find_safest_direction w.ghosts w.graph cur
        let st1 := { st with current_path := [], last_position := none }
        if fs.1 ≠ STOP then (fs.1, st1)
        else astar_after_danger w st1 cur
      else astar_after_danger w st cur

/-! ### Reachability semantics

`reachSet g s n` is the list of nodes reachable from `s` in exactly `n`
hops along Pacman-permitted edges; membership is the specification-side
notion of breadth-first hop distance. -/

/-- Nodes reachable from `s` in exactly `n` permitted hops. -/
def reachSet (g : Graph) (s : Pos) : Nat → List Pos
  | 0 => [s]
  | n + 1 => (reachSet g s n).flatMap fun p => (get_neighbors g p).map Prod.fst

theorem mem_reachSet_zero {g : Graph} {s q : Pos} :
    q ∈ reachSet g s 0 ↔ q = s := by
  simp [reachSet]

theorem mem_reachSet_succ {g : Graph} {s q : Pos} {n : Nat} :
    q ∈ reachSet g s (n + 1) ↔
      ∃ r, r ∈ reachSet g s n ∧ ∃ d, (q, d) ∈ get_neighbors g r := by
  simp only [reachSet, List.mem_flatMap, List.mem_map]
  constructor
  · rintro ⟨r, hr, ⟨q', d⟩, hm, he⟩
    simp only at he
    subst he
    exact ⟨r, hr, d, hm⟩
  · rintro ⟨r, hr, d, hm⟩
    exact ⟨r, hr, (q, d), hm, rfl⟩

/-- Find the neighbor reached by direction `d` in a neighbor list. -/
def dirLookup : List (Pos × Direction) → Direction → Option Pos
  | [], _ => none
  | (q, d') :: rest, d => if d' = d then some q else dirLookup rest d

/-- Apply a direction sequence from a start node, requiring every step to be
an existing, Pacman-permitted edge. -/
def followPath (g : Graph) : Pos → List Direction → Option Pos
  | p, [] => some p
  | p, d :: ds =>
      match dirLookup (get_neighbors g p) d with
      | some q => followPath g q ds
      | none => none

theorem dirLookup_mem {l : List (Pos × Direction)} {d : Direction} {q : Pos}
    (h : dirLookup l d = some q) : (q, d) ∈ l := by
  induction l with
  | nil => simp [dirLookup] at h
  | cons e rest ih =>
      obtain ⟨q', d'⟩ := e
      simp only [dirLookup] at h
      by_cases hd : d' = d
      · rw [if_pos hd] at h
        injection h with h1
        rw [← h1, ← hd]
        exact List.mem_cons_self _ _
      · rw [if_neg hd] at h
        exact List.mem_cons_of_mem _ (ih h)

/-- Membership in `get_neighbors` unfolded to the node table. -/
theorem mem_get_neighbors {g : Graph} {p q : Pos} {d : Direction} :
    (q, d) ∈ get_neighbors g p ↔
      d ∈ DIRECTION_ORDER ∧
      ∃ nd, lookupNode g.nodes p = some nd ∧ nd.neighbor d = some q ∧
        Entity.PACMAN ∈ nd.access d := by
  unfold get_neighbors
  cases hl : lookupNode g.nodes p with
  | none =>
      simp only [List.not_mem_nil, false_iff]
      rintro ⟨-, nd, hnd, -⟩
      exact Option.noConfusion hnd
  | some nd =>
      simp only [List.mem_filterMap]
      constructor
      · rintro ⟨d', hd', hf⟩
        cases hn : nd.neighbor d' with
        | none =>
            rw [hn] at hf
            dsimp only at hf
            exact Option.noConfusion hf
        | some q' =>
            rw [hn] at hf
            dsimp only at hf
            by_cases ha : Entity.PACMAN ∈ nd.access d'
            · rw [if_pos ha] at hf
              injection hf with hf'
              obtain ⟨hq, hdd⟩ := Prod.mk.injEq .. |>.mp hf'
              subst hdd
              exact ⟨hd', nd, rfl, by rw [hn, hq], ha⟩
            · rw [if_neg ha] at hf
              exact Option.noConfusion hf
      · rintro ⟨hd, nd', hnd', hn, ha⟩
        injection hnd' with hnd'
        subst hnd'
        refine ⟨d, hd, ?_⟩
        rw [hn]
        dsimp only
        rw [if_pos ha]

theorem dirLookup_of_mem_uniq {l : List (Pos × Direction)} {q : Pos}
    {d : Direction}
    (huniq : ∀ e1 ∈ l, ∀ e2 ∈ l, e1.2 = e2.2 → e1.1 = e2.1)
    (h : (q, d) ∈ l) : dirLookup l d = some q := by
  induction l with
  | nil => simp at h
  | cons e rest ih =>
      obtain ⟨q', d'⟩ := e
      simp only [dirLookup]
      by_cases hd : d' = d
      · rw [if_pos hd]
        subst hd
        have := huniq (q', d') (List.mem_cons_self _ _) (q, d') h rfl
        simp only at this
        rw [this]
      · rw [if_neg hd]
        rcases List.mem_cons.mp h with heq | hmem
        · exact absurd (congrArg Prod.snd heq).symm hd
        · exact ih (fun e1 h1 e2 h2 => huniq e1 (List.mem_cons_of_mem _ h1)
            e2 (List.mem_cons_of_mem _ h2)) hmem

/-- In a neighbor list, the direction determines the target, so membership
gives a successful `dirLookup`. -/
theorem dirLookup_of_mem {g : Graph} {p q : Pos} {d : Direction}
    (h : (q, d) ∈ get_neighbors g p) :
    dirLookup (get_neighbors g p) d = some q := by
  refine dirLookup_of_mem_uniq ?_ h
  rintro ⟨q1, d1⟩ h1 ⟨q2, d2⟩ h2 heq
  simp only at heq
  subst heq
  obtain ⟨-, nd1, hl1, hn1, -⟩ := mem_get_neighbors.mp h1
  obtain ⟨-, nd2, hl2, hn2, -⟩ := mem_get_neighbors.mp h2
  rw [hl1] at hl2
  injection hl2 with hl2
  subst hl2
  rw [hn1] at hn2
  injection hn2

theorem followPath_snoc {g : Graph} {s : Pos} {π : List Direction}
    {d : Direction} {q : Pos} :
    followPath g s (π ++ [d]) = some q ↔
      ∃ p, followPath g s π = some p ∧
        dirLookup (get_neighbors g p) d = some q := by
  induction π generalizing s with
  | nil =>
      simp only [List.nil_append, followPath]
      cases hdl : dirLookup (get_neighbors g s) d with
      | none => simp [followPath, hdl]
      | some r => simp [followPath, hdl]
  | cons d0 ds ih =>
      simp only [List.cons_append, followPath]
      cases hdl : dirLookup (get_neighbors g s) d0 with
      | none => simp
      | some r => exact ih

theorem followPath_reach {g : Graph} {s : Pos} {π : List Direction} {q : Pos}
    (h : followPath g s π = some q) : q ∈ reachSet g s π.length := by
  induction π using List.reverseRecOn generalizing q with
  | nil =>
      simp only [followPath] at h
      injection h with h
      simp [reachSet, h]
  | append_singleton π d ih =>
      obtain ⟨p, hp, hdl⟩ := followPath_snoc.mp h
      have hq := dirLookup_mem hdl
      simp only [List.length_append, List.length_cons, List.length_nil]
      exact mem_reachSet_succ.mpr ⟨p, ih hp, d, hq⟩

/-! ### Concrete test fixtures -/

/-- Build one node's data from its four optional neighbors, with every edge
open to Pacman. -/
def mkNode (up left down right : Option Pos) : NodeData :=
  { neighbor := fun d =>
      match d with
      | Direction.UP => up
      | Direction.LEFT => left
      | Direction.DOWN => down
      | Direction.RIGHT => right
      | Direction.STOP => none,
    access := fun _ => [Entity.PACMAN] }

/-- Two nodes `(0,0) ↔ (16,0)`. -/
def egPairGraph : Graph :=
  ⟨[(((0 : Int), (0 : Int)), mkNode none none none (some (16, 0))),
    (((16 : Int), (0 : Int)), mkNode none (some (0, 0)) none none)]⟩

/-- One pellet sitting exactly on the node `(0,0)`. -/
def egPairPellets : List Pellet := [⟨(0, 0)⟩]

/-- A three-node chain `(0,0) -RIGHT→ (16,0) -UP→ (160,0)`. -/
def egChainGraph : Graph :=
  ⟨[(((0 : Int), (0 : Int)), mkNode none none none (some (16, 0))),
    (((16 : Int), (0 : Int)), mkNode (some (160, 0)) none none none),
    (((160 : Int), (0 : Int)), mkNode none none none none)]⟩

/-- The chain world: pellet on the far node, no ghosts, Pacman at `(0,0)`. -/
def egChainWorld : World :=
  { graph := egChainGraph, pellets := [⟨(160, 0)⟩], ghosts := [],
    pacman := { position := (0, 0), node := some (0, 0), target := none } }

/-- The chain world with the pellet collection already emptied. -/
def egChainWorldNoPellets : World :=
  { graph := egChainGraph, pellets := [], ghosts := [],
    pacman := { position := (0, 0), node := some (0, 0), target := none } }

/-- A stale cached state: three pending steps, sampled position unchanged. -/
def egStaleState : AgentState :=
  ⟨[Direction.RIGHT, Direction.UP, Direction.RIGHT], none, none,
    some (0, 0)⟩

/-! ### Threat-model facts (claims C2 and C6) -/

theorem dangerBand_antitone {d1 d2 : Int} (h : d1 ≤ d2) :
    dangerBand d2 ≤ dangerBand d1 := by
  unfold dangerBand TILEWIDTH
  norm_num
  split_ifs <;> omega

theorem dangerBand_nonneg (d : Int) : 0 ≤ dangerBand d := by
  unfold dangerBand
  split_ifs <;> norm_num

/-- C2: for a single hostile-mode ghost the danger contribution of
`get_ghost_danger` is non-increasing in the squared distance across the
bands, and a spawn-returning ghost contributes exactly zero at every
distance. -/
theorem c2_threat_monotone (gh ghS : Ghost) (p1 p2 q : Pos)
    (hmode : gh.mode = GhostMode.CHASE ∨ gh.mode = GhostMode.SCATTER)
    (hdist : distSq gh.position p1 ≤ distSq gh.position p2)
    (hspawn : ghS.mode = GhostMode.SPAWN) :
    get_ghost_danger [gh] p2 ≤ get_ghost_danger [gh] p1 ∧
    get_ghost_danger [ghS] q = 0 := by
  constructor
  · have hns : gh.mode ≠ GhostMode.SPAWN := by
      rcases hmode with h | h <;> simp [h]
    simp only [get_ghost_danger, if_neg hns, add_zero]
    exact dangerBand_antitone hdist
  · simp [get_ghost_danger, hspawn]

/-- Witness for C2 at a chase ghost at the origin and positions at squared
distances 0 and 10000, plus a spawn ghost. -/
theorem c2_threat_monotone_witness :
    get_ghost_danger [⟨(0, 0), GhostMode.CHASE⟩] (100, 0) ≤
      get_ghost_danger [⟨(0, 0), GhostMode.CHASE⟩] (0, 0) ∧
    get_ghost_danger [⟨(0, 0), GhostMode.SPAWN⟩] (7, 3) = 0 :=
  c2_threat_monotone ⟨(0, 0), GhostMode.CHASE⟩ ⟨(0, 0), GhostMode.SPAWN⟩
    (0, 0) (100, 0) (7, 3) (Or.inl rfl) (by decide) rfl

/-- C6 counterexample: a frightened ghost sitting on the queried position is
well inside any moderate radius, yet its contribution is `+100000`, not a
strictly negative cost. -/
theorem c6_cex :
    get_ghost_danger [⟨(0, 0), GhostMode.FREIGHT⟩] (0, 0) = 100000 ∧
    ¬ get_ghost_danger [⟨(0, 0), GhostMode.FREIGHT⟩] (0, 0) < 0 := by
  constructor
  · decide
  · decide

/-- C6 amended: a frightened-mode ghost contributes exactly the same
nonnegative banded danger as a hostile ghost — there is no negative
(attraction) term for frightened ghosts at any distance. -/
theorem c6_freight_contribution (gh : Ghost) (p : Pos)
    (h : gh.mode = GhostMode.FREIGHT) :
    get_ghost_danger [gh] p = dangerBand (distSq gh.position p) ∧
    0 ≤ get_ghost_danger [gh] p := by
  have hns : gh.mode ≠ GhostMode.SPAWN := by simp [h]
  constructor
  · simp [get_ghost_danger, if_neg hns]
  · simp only [get_ghost_danger, if_neg hns, add_zero]
    exact dangerBand_nonneg _

/-- Witness for the amended C6 at a concrete frightened ghost. -/
theorem c6_freight_contribution_witness :
    get_ghost_danger [⟨(0, 0), GhostMode.FREIGHT⟩] (40, 0) =
      dangerBand (distSq (0, 0) (40, 0)) ∧
    0 ≤ get_ghost_danger [⟨(0, 0), GhostMode.FREIGHT⟩] (40, 0) :=
  c6_freight_contribution ⟨(0, 0), GhostMode.FREIGHT⟩ (40, 0) rfl

/-! ### Empty-pellet and missing-node guards (claims C7 and C9) -/

/-- C7: with an empty pellet collection the BFS agent's direction query
returns STOP at once and leaves the cached state untouched, regardless of
any stale nonempty `current_path`. -/
theorem c7_bfs_stop_on_empty (w : World) (st : AgentState)
    (h : w.pellets = []) : bfs_get_direction w st = (Direction.STOP, st) := by
  unfold bfs_get_direction
  rw [if_pos h]

/-- Witness for C7: empty pellets with a stale three-step cached path. -/
theorem c7_bfs_stop_on_empty_witness :
    bfs_get_direction egChainWorldNoPellets egStaleState =
      (Direction.STOP, egStaleState) :=
  c7_bfs_stop_on_empty egChainWorldNoPellets egStaleState rfl

/-- C9: when the character has no current node and no in-transit target the
effective node is missing and all three agents return STOP. -/
theorem c9_stop_without_node (w : World) (st : AgentState)
    (hn : w.pacman.node = none) (ht : w.pacman.target = none) :
    (astar_get_direction w st).1 = Direction.STOP ∧
    (bfs_get_direction w st).1 = Direction.STOP ∧
    (dfs_get_direction w st).1 = Direction.STOP := by
  have hcur : get_current_node w.pacman = none := by
    simp [get_current_node, hn, ht]
  refine ⟨by simp [astar_get_direction, hcur], ?_, ?_⟩
  · by_cases hp : w.pellets = [] <;> simp [bfs_get_direction, hcur, hp]
  · by_cases hp : w.pellets = [] <;> simp [dfs_get_direction, hcur, hp]

/-- Witness for C9: an uninitialized character in the chain world. -/
theorem c9_stop_without_node_witness :
    (astar_get_direction
        { egChainWorld with
            pacman := { position := (0, 0), node := none, target := none } }
        initState).1 = Direction.STOP ∧
    (bfs_get_direction
        { egChainWorld with
            pacman := { position := (0, 0), node := none, target := none } }
        initState).1 = Direction.STOP ∧
    (dfs_get_direction
        { egChainWorld with
            pacman := { position := (0, 0), node := none, target := none } }
        initState).1 = Direction.STOP :=
  c9_stop_without_node _ initState rfl rfl

/-! ### Counterexamples about the cached-path protocol (claims C4 and C5) -/

/-- C4 counterexample: in the chain world with a fresh agent the shortest
path is `[RIGHT, UP]`; the first query returns RIGHT, and an immediately
repeated query (identical world snapshot) pops the cached next step and
returns UP instead. -/
theorem c4_cex :
    (bfs_get_direction egChainWorld initState).1 = Direction.RIGHT ∧
    (bfs_get_direction egChainWorld
        (bfs_get_direction egChainWorld initState).2).1 = Direction.UP ∧
    Direction.RIGHT ≠ Direction.UP := by
  refine ⟨?_, ?_, by decide⟩ <;>
    simp [bfs_get_direction, get_current_node, find_path_to_nearest_pellet,
      bfs_loop, bfs_expand, get_neighbors, lookupNode, egChainGraph,
      egChainWorld, mkNode, DIRECTION_ORDER, goalHit, is_at_goal, distSq,
      TILEWIDTH, initState]

/-- C5 counterexample: two queries while the sampled position is unchanged
consume two front elements of the cached path, leaving `[RIGHT]` — which is
neither the original cache nor the original cache minus one front element. -/
theorem c5_cex :
    ((bfs_get_direction egChainWorld
        (bfs_get_direction egChainWorld egStaleState).2).2).current_path =
      [Direction.RIGHT] ∧
    egStaleState.current_path =
      [Direction.RIGHT, Direction.UP, Direction.RIGHT] ∧
    ([Direction.RIGHT] : List Direction) ≠
      [Direction.RIGHT, Direction.UP, Direction.RIGHT] ∧
    ([Direction.RIGHT] : List Direction) ≠ [Direction.UP, Direction.RIGHT] := by
  refine ⟨?_, rfl, by decide, by decide⟩
  simp [bfs_get_direction, get_current_node, egChainWorld, egStaleState]

/-! ### C1 counterexample -/

/-- C1 counterexample: with the single pellet lying on the start node, the
start node itself satisfies the goal test (minimal hop distance 0), yet
`find_path_to_nearest_pellet` — which never goal-tests the start node —
returns a one-step path, so the returned length is not the minimal
breadth-first hop distance to a node satisfying the goal test. -/
theorem c1_cex :
    (find_path_to_nearest_pellet egPairGraph egPairPellets
      (some (0, 0))).length = 1 ∧
    goalHit egPairPellets (0, 0) = true ∧
    (0, 0) ∈ reachSet egPairGraph (0, 0) 0 := by
  refine ⟨by decide, by decide, by simp [reachSet]⟩

/-! ### The flee scan (`find_safest_direction`) and claim C3 -/

theorem safest_go_spec (ghosts : List Ghost) (l : List (Pos × Direction))
    (bd : Direction) (lo : Option Int) :
    (safest_go ghosts l (bd, lo) = (bd, lo) ∨
      ∃ nb d, (nb, d) ∈ l ∧
        safest_go ghosts l (bd, lo) = (d, some (get_ghost_danger ghosts nb))) ∧
    (∀ e ∈ l, ∃ v, (safest_go ghosts l (bd, lo)).2 = some v ∧
      v ≤ get_ghost_danger ghosts e.1) ∧
    (∀ w, lo = some w → ∃ v, (safest_go ghosts l (bd, lo)).2 = some v ∧
      v ≤ w) := by
  induction l generalizing bd lo with
  | nil =>
      refine ⟨Or.inl rfl, by simp, ?_⟩
      rintro w rfl
      exact ⟨w, rfl, le_refl _⟩
  | cons e rest ih =>
      obtain ⟨q, d⟩ := e
      have key : ∀ w0 : Option Int, (∀ w, w0 = some w →
            get_ghost_danger ghosts q ≤ w) →
          (∃ nb d', (nb, d') ∈ (q, d) :: rest ∧
            safest_go ghosts rest (d, some (get_ghost_danger ghosts q)) =
              (d', some (get_ghost_danger ghosts nb))) ∧
          (∀ e ∈ (q, d) :: rest, ∃ v,
            (safest_go ghosts rest
              (d, some (get_ghost_danger ghosts q))).2 = some v ∧
            v ≤ get_ghost_danger ghosts e.1) ∧
          (∀ w, w0 = some w → ∃ v,
            (safest_go ghosts rest
              (d, some (get_ghost_danger ghosts q))).2 = some v ∧
            v ≤ w) := by
        intro w0 hw0
        obtain ⟨ih1, ih2, ih3⟩ := ih d (some (get_ghost_danger ghosts q))
        refine ⟨?_, ?_, ?_⟩
        · rcases ih1 with h' | ⟨nb, d', hm, h'⟩
          · exact ⟨q, d, List.mem_cons_self _ _, h'⟩
          · exact ⟨nb, d', List.mem_cons_of_mem _ hm, h'⟩
        · intro e he
          rcases List.mem_cons.mp he with rfl | he'
          · exact ih3 _ rfl
          · exact ih2 e he'
        · intro w hw
          obtain ⟨v, hv, hle⟩ := ih3 _ rfl
          exact ⟨v, hv, le_trans hle (hw0 w hw)⟩
      cases lo with
      | none =>
          have hstep : safest_go ghosts ((q, d) :: rest) (bd, none) =
              safest_go ghosts rest
                (d, some (get_ghost_danger ghosts q)) := by
            simp [safest_go]
          rw [hstep]
          obtain ⟨h1, h2, -⟩ := key none (by rintro w ⟨⟩)
          exact ⟨Or.inr h1, h2, by rintro w ⟨⟩⟩
      | some w0 =>
          by_cases hcmp : get_ghost_danger ghosts q < w0
          · have hstep : safest_go ghosts ((q, d) :: rest) (bd, some w0) =
                safest_go ghosts rest
                  (d, some (get_ghost_danger ghosts q)) := by
              simp [safest_go, hcmp]
            rw [hstep]
            obtain ⟨h1, h2, h3⟩ := key (some w0) (by
              rintro w hw
              injection hw with hw
              subst hw
              exact le_of_lt hcmp)
            exact ⟨Or.inr h1, h2, h3⟩
          · have hstep : safest_go ghosts ((q, d) :: rest) (bd, some w0) =
                safest_go ghosts rest (bd, some w0) := by
              simp [safest_go, hcmp]
            rw [hstep]
            obtain ⟨ih1, ih2, ih3⟩ := ih bd (some w0)
            refine ⟨?_, ?_, ih3⟩
            · rcases ih1 with h | ⟨nb, d', hm, h⟩
              · exact Or.inl h
              · exact Or.inr ⟨nb, d', List.mem_cons_of_mem _ hm, h⟩
            · intro e he
              rcases List.mem_cons.mp he with rfl | he'
              · obtain ⟨v, hv, hle⟩ := ih3 w0 rfl
                exact ⟨v, hv, le_trans hle (not_lt.mp hcmp)⟩
              · exact ih2 e he'

/-- If the flee scan returns a non-STOP direction, that direction belongs
to a permitted neighbor whose danger is minimal among all permitted
neighbors. -/
theorem find_safest_direction_min (ghosts : List Ghost) (g : Graph)
    (cur : Pos)
    (h : (find_safest_direction ghosts g cur).1 ≠ Direction.STOP) :
    ∃ nb, (nb, (find_safest_direction ghosts g cur).1) ∈ get_neighbors g cur ∧
      ∀ e ∈ get_neighbors g cur,
        get_ghost_danger ghosts nb ≤ get_ghost_danger ghosts e.1 := by
  obtain ⟨h1, h2, -⟩ :=
    safest_go_spec ghosts (get_neighbors g cur) Direction.STOP none
  rcases h1 with heq | ⟨nb, d, hm, heq⟩
  · exfalso
    apply h
    unfold find_safest_direction
    rw [heq]
  · have hres1 : (find_safest_direction ghosts g cur).1 = d := by
      unfold find_safest_direction
      rw [heq]
    refine ⟨nb, by rw [hres1]; exact hm, ?_⟩
    intro e he
    obtain ⟨v, hv, hle⟩ := h2 e he
    rw [heq] at hv
    dsimp only at hv
    injection hv with hv
    rw [hv]
    exact hle

/-- C3: at or above the severe danger threshold, the survival agent clears
its cached path and — when the flee scan yields a non-STOP direction —
immediately returns that direction, which belongs to a permitted neighbor
of the effective node minimizing the threat cost; the previously cached
path is neither consumed nor followed. -/
theorem c3_danger_override (w : World) (st : AgentState) (cur : Pos)
    (hcur : get_current_node w.pacman = some cur)
    (hdanger : get_ghost_danger w.ghosts w.pacman.position ≥ 10000)
    (hflee : (find_safest_direction w.ghosts w.graph cur).1 ≠ Direction.STOP) :
    astar_get_direction w st =
      ((find_safest_direction w.ghosts w.graph cur).1,
        { st with current_path := [], last_position := none }) ∧
    ∃ nb, (nb, (find_safest_direction w.ghosts w.graph cur).1) ∈
        get_neighbors w.graph cur ∧
      ∀ e ∈ get_neighbors w.graph cur,
        get_ghost_danger w.ghosts nb ≤ get_ghost_danger w.ghosts e.1 := by
  refine ⟨?_, find_safest_direction_min _ _ _ hflee⟩
  simp only [astar_get_direction, hcur]
  rw [if_pos hdanger, if_pos hflee]

/-- A hostile ghost two tiles behind Pacman, whose node has one permitted
neighbor: danger at Pacman's position is 50000 and the flee scan returns
RIGHT. -/
def egDangerWorld : World :=
  { graph := ⟨[(((32 : Int), (0 : Int)), mkNode none none none (some (48, 0))),
               (((48 : Int), (0 : Int)), mkNode none none none none)]⟩,
    pellets := [⟨(160, 0)⟩],
    ghosts := [⟨(0, 0), GhostMode.CHASE⟩],
    pacman := { position := (32, 0), node := some (32, 0), target := none } }

/-- Witness for C3 in `egDangerWorld`, starting from a stale cached path. -/
theorem c3_danger_override_witness :
    astar_get_direction egDangerWorld egStaleState =
      ((find_safest_direction egDangerWorld.ghosts egDangerWorld.graph
          (32, 0)).1,
        { egStaleState with current_path := [], last_position := none }) ∧
    ∃ nb, (nb, (find_safest_direction egDangerWorld.ghosts
        egDangerWorld.graph (32, 0)).1) ∈
        get_neighbors egDangerWorld.graph (32, 0) ∧
      ∀ e ∈ get_neighbors egDangerWorld.graph (32, 0),
        get_ghost_danger egDangerWorld.ghosts nb ≤
          get_ghost_danger egDangerWorld.ghosts e.1 :=
  c3_danger_override egDangerWorld egStaleState (32, 0) rfl (by decide)
    (by decide)

/-! ### Claim C10: the empty-path fallback of the BFS and DFS agents -/

/-- C10: when a query by the greedy-score or single-target agent ends up
with an empty computed path (fresh replan yielding no path), the returned
direction is that of the first permitted neighbor of the effective node in
canonical order UP, LEFT, DOWN, RIGHT — and STOP exactly when the effective
node has no permitted neighbor. -/
theorem c10_empty_path_fallback (w : World) (st : AgentState) (cur : Pos)
    (hcur : get_current_node w.pacman = some cur)
    (hne : w.pellets ≠ [])
    (hfresh : st.current_path = [] ∨ some w.pacman.position ≠ st.last_position)
    (hbfs : find_path_to_nearest_pellet w.graph w.pellets (some cur) = [])
    (hdfs : find_shortest_path_to_pellet w.graph w.pellets (some cur) = []) :
    (bfs_get_direction w st).1 =
      (match get_neighbors w.graph cur with
       | [] => Direction.STOP
       | (_, d) :: _ => d) ∧
    (dfs_get_direction w st).1 =
      (match get_neighbors w.graph cur with
       | [] => Direction.STOP
       | (_, d) :: _ => d) ∧
    ((match get_neighbors w.graph cur with
       | [] => Direction.STOP
       | (_, d) :: _ => d) = Direction.STOP ↔
      get_neighbors w.graph cur = []) := by
  have hc : some w.pacman.position ≠ st.last_position ∨
      st.current_path = [] := Or.symm hfresh
  refine ⟨?_, ?_, ?_⟩
  · simp only [bfs_get_direction, hcur, hne, hc, if_true, if_false,
      ite_false, ite_true, if_pos hc, hbfs]
    cases hn : get_neighbors w.graph cur with
    | nil => simp [hne]
    | cons e rest' =>
        obtain ⟨q, d⟩ := e
        simp [hne]
  · simp only [dfs_get_direction, hcur, hne, hc, if_true, if_false,
      ite_false, ite_true, if_pos hc, hdfs]
    cases hn : get_neighbors w.graph cur with
    | nil => simp [hne]
    | cons e rest' =>
        obtain ⟨q, d⟩ := e
        simp [hne]
  · cases hn : get_neighbors w.graph cur with
    | nil => simp
    | cons e rest' =>
        obtain ⟨q, d⟩ := e
        have hd : d ∈ DIRECTION_ORDER :=
          (mem_get_neighbors.mp (by rw [hn]; exact List.mem_cons_self _ _)).1
        simp only [List.cons_ne_nil, iff_false]
        intro hds
        rw [hds] at hd
        simp [DIRECTION_ORDER] at hd

/-- The chain world with a single unreachable pellet. -/
def egUnreachWorld : World :=
  { graph := egChainGraph, pellets := [⟨(1000, 1000)⟩], ghosts := [],
    pacman := { position := (0, 0), node := some (0, 0), target := none } }

/-- Witness for C10: unreachable pellet, fresh agent — both agents return
the first permitted neighbor direction. -/
theorem c10_empty_path_fallback_witness :
    (bfs_get_direction egUnreachWorld initState).1 =
      (match get_neighbors egUnreachWorld.graph (0, 0) with
       | [] => Direction.STOP
       | (_, d) :: _ => d) ∧
    (dfs_get_direction egUnreachWorld initState).1 =
      (match get_neighbors egUnreachWorld.graph (0, 0) with
       | [] => Direction.STOP
       | (_, d) :: _ => d) ∧
    ((match get_neighbors egUnreachWorld.graph (0, 0) with
       | [] => Direction.STOP
       | (_, d) :: _ => d) = Direction.STOP ↔
      get_neighbors egUnreachWorld.graph (0, 0) = []) :=
  c10_empty_path_fallback egUnreachWorld initState (0, 0) rfl
    (by decide) (Or.inl rfl)
    (by simp [find_path_to_nearest_pellet, bfs_loop, bfs_expand,
      get_neighbors, lookupNode, egChainGraph, egUnreachWorld, mkNode,
      DIRECTION_ORDER, goalHit, is_at_goal, distSq, TILEWIDTH])
    (by simp [find_shortest_path_to_pellet, dfs_loop, dfs_expand,
      get_neighbors, lookupNode, egChainGraph, egUnreachWorld, mkNode,
      DIRECTION_ORDER, goalHit, is_at_goal, distSq, TILEWIDTH])

/-! ### Claim C8: the empty-result cases of the DFS agent's search -/

theorem mem_dfs_expand {visited : List Pos} {path : List Direction}
    {nbrs : List (Pos × Direction)} {e : Pos × List Direction}
    (h : e ∈ dfs_expand visited path nbrs) :
    ∃ q d, (q, d) ∈ nbrs ∧ e = (q, path ++ [d]) := by
  induction nbrs with
  | nil => simp [dfs_expand] at h
  | cons x rest ih =>
      obtain ⟨q, d⟩ := x
      simp only [dfs_expand] at h
      by_cases hv : q ∈ visited
      · rw [if_pos hv] at h
        obtain ⟨q', d', hm, he⟩ := ih h
        exact ⟨q', d', List.mem_cons_of_mem _ hm, he⟩
      · rw [if_neg hv] at h
        rcases List.mem_cons.mp h with rfl | hm
        · exact ⟨q, d, List.mem_cons_self _ _, rfl⟩
        · obtain ⟨q', d', hm', he⟩ := ih hm
          exact ⟨q', d', List.mem_cons_of_mem _ hm', he⟩

/-- If no node reachable from `s` satisfies the goal test, the DFS loop
(seeded with entries whose paths are valid from `s`) returns the empty
path. -/
theorem dfs_loop_nil_of_unreachable (g : Graph) (target : Pos) (s : Pos)
    (Q : List (Pos × List Direction)) (V : List Pos)
    (hgoal : ∀ q m, q ∈ reachSet g s m → is_at_goal q target = false)
    (hval : ∀ e ∈ Q, followPath g s e.2 = some e.1) :
    dfs_loop g target Q V = [] := by
  induction Q, V using dfs_loop.induct g target with
  | case1 V => simp [dfs_loop]
  | case2 p path rest visited hp ih =>
      simp only [dfs_loop]
      rw [dif_pos hp]
      exact ih fun e he => hval e (List.mem_cons_of_mem _ he)
  | case3 p path rest visited hp hat =>
      exfalso
      have hpv : followPath g s path = some p :=
        hval (p, path) (List.mem_cons_self _ _)
      have := hgoal p path.length (followPath_reach hpv)
      rw [this] at hat
      exact Bool.noConfusion hat
  | case4 p path rest visited hp hat ih =>
      simp only [dfs_loop]
      rw [dif_neg hp, if_neg hat]
      refine ih fun e he => ?_
      rcases List.mem_append.mp he with hm | hm
      · exact hval e (List.mem_cons_of_mem _ hm)
      · obtain ⟨q, d, hqd, rfl⟩ := mem_dfs_expand hm
        have hpv : followPath g s path = some p :=
          hval (p, path) (List.mem_cons_self _ _)
        exact followPath_snoc.mpr ⟨p, hpv, dirLookup_of_mem hqd⟩

/-- C8: the single-target search returns the empty direction sequence when
the pellet collection is empty, when the start node already satisfies the
goal test for the single pellet (checked before anything is enqueued), or
when no node satisfying the goal test is reachable from the start. -/
theorem c8_dfs_empty_cases (g : Graph) (pellets : List Pellet) (s : Pos)
    (h : pellets = [] ∨
      (∃ pl rest, pellets = pl :: rest ∧ is_at_goal s pl.position = true) ∨
      (∃ pl rest, pellets = pl :: rest ∧
        ∀ q m, q ∈ reachSet g s m → is_at_goal q pl.position = false)) :
    find_shortest_path_to_pellet g pellets (some s) = [] := by
  rcases h with rfl | ⟨pl, rest, rfl, hat⟩ | ⟨pl, rest, rfl, hunreach⟩
  · rfl
  · simp [find_shortest_path_to_pellet, hat]
  · simp only [find_shortest_path_to_pellet]
    have hat : is_at_goal s pl.position = false :=
      hunreach s 0 (by simp [reachSet])
    rw [if_neg (by rw [hat]; exact Bool.noConfusion)]
    exact dfs_loop_nil_of_unreachable g pl.position s _ _ hunreach
      (by
        intro e he
        rcases List.mem_singleton.mp he with rfl
        rfl)

/-- Every node reachable in the chain graph from the origin is one of its
three nodes. -/
theorem egChainGraph_reach_sub (m : Nat) (q : Pos)
    (hq : q ∈ reachSet egChainGraph (0, 0) m) :
    q ∈ [((0 : Int), (0 : Int)), (16, 0), (160, 0)] := by
  induction m generalizing q with
  | zero =>
      rw [mem_reachSet_zero] at hq
      simp [hq]
  | succ n ih =>
      obtain ⟨r, hr, d, hd⟩ := mem_reachSet_succ.mp hq
      have hrm := ih r hr
      simp only [List.mem_cons, List.not_mem_nil, or_false] at hrm
      rcases hrm with rfl | rfl | rfl
      · rw [show get_neighbors egChainGraph ((0 : Int), (0 : Int)) =
            [((16, 0), Direction.RIGHT)] by decide] at hd
        simp only [List.mem_singleton, Prod.mk.injEq] at hd
        simp [hd.1]
      · rw [show get_neighbors egChainGraph ((16 : Int), (0 : Int)) =
            [((160, 0), Direction.UP)] by decide] at hd
        simp only [List.mem_singleton, Prod.mk.injEq] at hd
        simp [hd.1]
      · rw [show get_neighbors egChainGraph ((160 : Int), (0 : Int)) =
            [] by decide] at hd
        simp at hd

/-- Witness for C8, exercising all three cases: empty collection, start at
goal, unreachable pellet. -/
theorem c8_dfs_empty_cases_witness :
    find_shortest_path_to_pellet egChainGraph [] (some (0, 0)) = [] ∧
    find_shortest_path_to_pellet egPairGraph egPairPellets
      (some (0, 0)) = [] ∧
    find_shortest_path_to_pellet egChainGraph [⟨(1000, 1000)⟩]
      (some (0, 0)) = [] :=
  ⟨c8_dfs_empty_cases egChainGraph [] (0, 0) (Or.inl rfl),
   c8_dfs_empty_cases egPairGraph egPairPellets (0, 0)
     (Or.inr (Or.inl ⟨⟨(0, 0)⟩, [], rfl, by decide⟩)),
   c8_dfs_empty_cases egChainGraph [⟨(1000, 1000)⟩] (0, 0)
     (Or.inr (Or.inr ⟨⟨(1000, 1000)⟩, [], rfl, by
        intro q m hq
        have := egChainGraph_reach_sub m q hq
        simp only [List.mem_cons, List.not_mem_nil, or_false] at this
        rcases this with rfl | rfl | rfl <;> decide⟩))⟩

/-! ### Claim C5 (amended): one pop per stationary query -/

/-- C5 amended: a query made while the sampled position equals
`last_position` and the cached path is nonempty consumes exactly the front
element of `current_path` and returns it (for the survival agent, provided
current danger and the front step's raw neighbor danger are below the
severe threshold); hence `k` consecutive stationary queries consume `k`
front elements, not at most one. -/
theorem c5_amended_pop_per_query (w : World) (st : AgentState) (cur : Pos)
    (d : Direction) (restPath : List Direction)
    (hcur : get_current_node w.pacman = some cur)
    (hstay : some w.pacman.position = st.last_position)
    (hpath : st.current_path = d :: restPath)
    (hne : w.pellets ≠ [])
    (hdanger : get_ghost_danger w.ghosts w.pacman.position < 10000)
    (hnbsafe : ∀ nb, raw_neighbor w.graph cur d = some nb →
      get_ghost_danger w.ghosts nb < 10000) :
    bfs_get_direction w st = (d, { st with current_path := restPath }) ∧
    dfs_get_direction w st = (d, { st with current_path := restPath }) ∧
    astar_get_direction w st = (d, { st with current_path := restPath }) := by
  have hnotc : ¬(some w.pacman.position ≠ st.last_position ∨
      st.current_path = []) := by
    push_neg
    exact ⟨hstay, by rw [hpath]; exact List.cons_ne_nil _ _⟩
  refine ⟨?_, ?_, ?_⟩
  · simp only [bfs_get_direction, hcur]
    rw [if_neg hne, if_neg hnotc, hpath]
  · simp only [dfs_get_direction, hcur]
    rw [if_neg hne, if_neg hnotc, hpath]
  · simp only [astar_get_direction, hcur]
    rw [if_neg (not_le.mpr hdanger)]
    simp only [astar_after_danger]
    rw [if_neg hnotc]
    simp only [astar_deliver]
    rw [hpath]
    dsimp only
    cases hnb : raw_neighbor w.graph cur d with
    | none => rfl
    | some nb =>
        dsimp only
        rw [if_neg (show ¬get_ghost_danger w.ghosts nb ≥ 10000 from
          not_le.mpr (hnbsafe nb hnb))]

/-- Witness for the amended C5 in the ghost-free chain world with a stale
three-step cache and an unchanged sampled position. -/
theorem c5_amended_pop_per_query_witness :
    bfs_get_direction egChainWorld egStaleState =
      (Direction.RIGHT,
        { egStaleState with
            current_path := [Direction.UP, Direction.RIGHT] }) ∧
    dfs_get_direction egChainWorld egStaleState =
      (Direction.RIGHT,
        { egStaleState with
            current_path := [Direction.UP, Direction.RIGHT] }) ∧
    astar_get_direction egChainWorld egStaleState =
      (Direction.RIGHT,
        { egStaleState with
            current_path := [Direction.UP, Direction.RIGHT] }) :=
  c5_amended_pop_per_query egChainWorld egStaleState (0, 0) Direction.RIGHT
    [Direction.UP, Direction.RIGHT] rfl rfl rfl (by decide) (by decide)
    (by
      intro nb h
      simp only [egChainWorld, get_ghost_danger]
      norm_num)

/-! ### Claim C4 (amended): determinism of back-to-back queries from a
fresh cache -/

/-- The path the survival agent computes during a replanning query: the A*
path toward the selected safest pellet (empty when there is none). -/
def astar_planned_path (w : World) (cur : Pos) : List Direction :=
  match select_safest_pellet w with
  | some tp => find_path w.graph w.ghosts (some cur) tp.position
  | none => []

/-- The direction a survival-agent query returns when its cache is empty;
a function of the world snapshot and effective node only. -/
def astar_fresh_dir (w : World) (cur : Pos) : Direction :=
  let fs := (find_safest_direction w.ghosts w.graph cur).1
  if get_ghost_danger w.ghosts w.pacman.position ≥ 10000 ∧
      fs ≠ Direction.STOP then fs
  else
    match astar_planned_path w cur with
    | [] => fs
    | d :: _ =>
        match raw_neighbor w.graph cur d with
        | some nb =>
            if get_ghost_danger w.ghosts nb ≥ 10000 then fs else d
        | none => d

theorem select_go_isSome (ghosts : List Ghost) (pacPos : Pos)
    (l : List Pellet) (pl0 : Pellet) (lo : Option Int) :
    ∃ tp, select_go ghosts pacPos l (some pl0, lo) = some tp := by
  induction l generalizing pl0 lo with
  | nil => exact ⟨pl0, rfl⟩
  | cons pl rest ih =>
      simp only [select_go]
      by_cases hc : (match lo with
        | none => true
        | some l => decide (pellet_score100 ghosts pacPos pl < l)) = true
      · rw [if_pos hc]
        exact ih pl _
      · rw [if_neg hc]
        exact ih pl0 lo

theorem select_safest_pellet_isSome (w : World) (hp : w.pellets ≠ []) :
    ∃ tp, select_safest_pellet w = some tp := by
  cases hl : w.pellets with
  | nil => exact absurd hl hp
  | cons pl rest =>
      simp only [select_safest_pellet, hl]
      have hstep : select_go w.ghosts w.pacman.position (pl :: rest)
          (none, none) = select_go w.ghosts w.pacman.position rest
          (some pl, some (pellet_score100 w.ghosts w.pacman.position pl)) := by
        simp [select_go]
      rw [hstep]
      exact select_go_isSome _ _ _ _ _

/-- When the flee scan returns STOP, the effective node has no permitted
neighbors at all. -/
theorem find_safest_stop_nil (ghosts : List Ghost) (g : Graph) (cur : Pos)
    (h : (find_safest_direction ghosts g cur).1 = Direction.STOP) :
    get_neighbors g cur = [] := by
  cases hn : get_neighbors g cur with
  | nil => rfl
  | cons e rest =>
      exfalso
      obtain ⟨h1, h2, -⟩ :=
        safest_go_spec ghosts (get_neighbors g cur) Direction.STOP none
      obtain ⟨v, hv, -⟩ := h2 e (by rw [hn]; exact List.mem_cons_self _ _)
      rcases h1 with heq | ⟨nb, d, hm, heq⟩
      · rw [heq] at hv
        exact Option.noConfusion hv
      · have hd := (mem_get_neighbors.mp hm).1
        unfold find_safest_direction at h
        rw [heq] at h
        dsimp only at h
        rw [h] at hd
        simp [DIRECTION_ORDER] at hd

/-- With no permitted neighbors at the start, the A* search pops the start,
expands nothing, and returns the empty path. -/
theorem find_path_no_neighbors (g : Graph) (ghosts : List Ghost) (cur : Pos)
    (t : Pos) (hnb : get_neighbors g cur = []) :
    find_path g ghosts (some cur) t = [] := by
  simp only [find_path]
  by_cases hat : is_at_goal cur t = true
  · rw [if_pos hat]
  · rw [if_neg hat]
    rw [astar_loop.eq_def]
    simp [popMinGo, hnb, astar_expand, hat, astar_loop]

/-- One BFS query from an empty cache: the returned direction is a function
of the world and effective node only, and the new cache is the computed
path minus its consumed head. -/
theorem bfs_fresh_eval (w : World) (st : AgentState) (cur : Pos)
    (hcur : get_current_node w.pacman = some cur)
    (hempty : st.current_path = []) (hne : w.pellets ≠ []) :
    bfs_get_direction w st =
      ((match find_path_to_nearest_pellet w.graph w.pellets (some cur) with
        | [] =>
            match get_neighbors w.graph cur with
            | [] => Direction.STOP
            | (_, d) :: _ => d
        | d :: _ => d),
       { st with last_position := some w.pacman.position,
                 current_path :=
                   (find_path_to_nearest_pellet w.graph w.pellets
                     (some cur)).tail }) := by
  have hcond : some w.pacman.position ≠ st.last_position ∨
      st.current_path = [] := Or.inr hempty
  simp only [bfs_get_direction, hcur]
  rw [if_neg hne, if_pos hcond]
  cases hP : find_path_to_nearest_pellet w.graph w.pellets (some cur) with
  | nil =>
      dsimp only
      cases hn : get_neighbors w.graph cur with
      | nil => rfl
      | cons e rest => obtain ⟨q, d⟩ := e; rfl
  | cons d r => rfl

/-- One DFS query from an empty cache, analogous to `bfs_fresh_eval`. -/
theorem dfs_fresh_eval (w : World) (st : AgentState) (cur : Pos)
    (hcur : get_current_node w.pacman = some cur)
    (hempty : st.current_path = []) (hne : w.pellets ≠ []) :
    dfs_get_direction w st =
      ((match find_shortest_path_to_pellet w.graph w.pellets (some cur) with
        | [] =>
            match get_neighbors w.graph cur with
            | [] => Direction.STOP
            | (_, d) :: _ => d
        | d :: _ => d),
       { st with last_position := some w.pacman.position,
                 current_path :=
                   (find_shortest_path_to_pellet w.graph w.pellets
                     (some cur)).tail }) := by
  have hcond : some w.pacman.position ≠ st.last_position ∨
      st.current_path = [] := Or.inr hempty
  simp only [dfs_get_direction, hcur]
  rw [if_neg hne, if_pos hcond]
  cases hP : find_shortest_path_to_pellet w.graph w.pellets (some cur) with
  | nil =>
      dsimp only
      cases hn : get_neighbors w.graph cur with
      | nil => rfl
      | cons e rest => obtain ⟨q, d⟩ := e; rfl
  | cons d r => rfl

/-- One survival-agent query from an empty cache: the returned direction is
`astar_fresh_dir w cur`, and when the freshly planned path has at most one
step the resulting cache is empty again. -/
theorem astar_fresh_eval (w : World) (st : AgentState) (cur : Pos)
    (hcur : get_current_node w.pacman = some cur)
    (hempty : st.current_path = []) :
    (astar_get_direction w st).1 = astar_fresh_dir w cur ∧
    ((astar_planned_path w cur).length ≤ 1 →
      (astar_get_direction w st).2.current_path = []) := by
  by_cases hd : get_ghost_danger w.ghosts w.pacman.position ≥ 10000
  · by_cases hfs :
        (find_safest_direction w.ghosts w.graph cur).1 ≠ Direction.STOP
    · simp only [astar_get_direction, hcur]
      rw [if_pos hd, if_pos hfs]
      constructor
      · unfold astar_fresh_dir
        rw [if_pos ⟨hd, hfs⟩]
      · intro _
        rfl
    · have hfsEq : (find_safest_direction w.ghosts w.graph cur).1 =
          Direction.STOP := not_not.mp hfs
      have hnotand : ¬(get_ghost_danger w.ghosts w.pacman.position ≥
          10000 ∧ (find_safest_direction w.ghosts w.graph cur).1 ≠
          Direction.STOP) := by
        rintro ⟨-, hcontra⟩
        exact hcontra hfsEq
      have hnb := find_safest_stop_nil w.ghosts w.graph cur hfsEq
      simp only [astar_get_direction, hcur]
      rw [if_pos hd, if_neg hfs]
      simp only [astar_after_danger]
      rw [if_pos (Or.inr trivial)]
      by_cases hp : w.pellets = []
      · rw [if_pos hp]
        have hplan : astar_planned_path w cur = [] := by
          simp [astar_planned_path, select_safest_pellet, hp]
        constructor
        · unfold astar_fresh_dir
          rw [if_neg hnotand, hplan]
        · intro _
          rfl
      · rw [if_neg hp]
        obtain ⟨tp, htp⟩ := select_safest_pellet_isSome w hp
        have hfp : find_path w.graph w.ghosts (some cur) tp.position = [] :=
          find_path_no_neighbors w.graph w.ghosts cur tp.position hnb
        have hplan : astar_planned_path w cur = [] := by
          simp [astar_planned_path, htp, hfp]
        simp only [htp, hfp, astar_deliver]
        constructor
        · unfold astar_fresh_dir
          rw [if_neg hnotand, hplan]
        · intro _
          trivial
  · have hnotand : ¬(get_ghost_danger w.ghosts w.pacman.position ≥
        10000 ∧ (find_safest_direction w.ghosts w.graph cur).1 ≠
        Direction.STOP) := by
      rintro ⟨hcontra, -⟩
      exact hd hcontra
    simp only [astar_get_direction, hcur]
    rw [if_neg hd]
    simp only [astar_after_danger]
    rw [if_pos (Or.inr hempty)]
    by_cases hp : w.pellets = []
    · rw [if_pos hp]
      have hplan : astar_planned_path w cur = [] := by
        simp [astar_planned_path, select_safest_pellet, hp]
      constructor
      · unfold astar_fresh_dir
        rw [if_neg hnotand, hplan]
      · intro _
        simpa using hempty
    · rw [if_neg hp]
      obtain ⟨tp, htp⟩ := select_safest_pellet_isSome w hp
      have hplan : astar_planned_path w cur =
          find_path w.graph w.ghosts (some cur) tp.position := by
        simp [astar_planned_path, htp]
      simp only [htp]
      cases hP : find_path w.graph w.ghosts (some cur) tp.position with
      | nil =>
          simp only [astar_deliver]
          constructor
          · unfold astar_fresh_dir
            rw [if_neg hnotand, hplan, hP]
          · intro _
            trivial
      | cons d r =>
          simp only [astar_deliver]
          cases hnb : raw_neighbor w.graph cur d with
          | none =>
              dsimp only
              constructor
              · unfold astar_fresh_dir
                rw [if_neg hnotand, hplan, hP]
                dsimp only
                rw [hnb]
              · intro hlen
                rw [hplan, hP] at hlen
                simp only [List.length_cons] at hlen
                have hr : r = [] := by
                  cases r with
                  | nil => rfl
                  | cons x xs => simp at hlen
                simp [hr]
          | some nb =>
              dsimp only
              by_cases hgd : get_ghost_danger w.ghosts nb ≥ 10000
              · rw [if_pos hgd]
                constructor
                · unfold astar_fresh_dir
                  rw [if_neg hnotand, hplan, hP]
                  dsimp only
                  rw [hnb]
                  dsimp only
                  rw [if_pos hgd]
                · intro _
                  trivial
              · rw [if_neg hgd]
                constructor
                · unfold astar_fresh_dir
                  rw [if_neg hnotand, hplan, hP]
                  dsimp only
                  rw [hnb]
                  dsimp only
                  rw [if_neg hgd]
                · intro hlen
                  rw [hplan, hP] at hlen
                  simp only [List.length_cons] at hlen
                  have hr : r = [] := by
                    cases r with
                    | nil => rfl
                    | cons x xs => simp at hlen
                  simp [hr]

/-- C4 amended: for every agent and fixed world snapshot, two direction
queries in immediate succession return the same Direction provided the
cached path is empty at the first query and the path that query computes
(if any) has at most one step; otherwise the second query may consume and
return the next cached step instead. -/
theorem c4_amended_fresh_deterministic (w : World) (st : AgentState)
    (cur : Pos) (hcur : get_current_node w.pacman = some cur)
    (hempty : st.current_path = []) :
    ((find_path_to_nearest_pellet w.graph w.pellets (some cur)).length ≤ 1 →
      (bfs_get_direction w (bfs_get_direction w st).2).1 =
        (bfs_get_direction w st).1) ∧
    ((find_shortest_path_to_pellet w.graph w.pellets (some cur)).length ≤ 1 →
      (dfs_get_direction w (dfs_get_direction w st).2).1 =
        (dfs_get_direction w st).1) ∧
    ((astar_planned_path w cur).length ≤ 1 →
      (astar_get_direction w (astar_get_direction w st).2).1 =
        (astar_get_direction w st).1) := by
  refine ⟨?_, ?_, ?_⟩
  · intro hlen
    by_cases hp : w.pellets = []
    · rw [c7_bfs_stop_on_empty w st hp]
      dsimp only
      rw [c7_bfs_stop_on_empty w st hp]
    · have h1 := bfs_fresh_eval w st cur hcur hempty hp
      have htail : (find_path_to_nearest_pellet w.graph w.pellets
          (some cur)).tail = [] := by
        cases hP : find_path_to_nearest_pellet w.graph w.pellets (some cur)
          with
        | nil => rfl
        | cons d r =>
            rw [hP] at hlen
            simp only [List.length_cons] at hlen
            cases r with
            | nil => rfl
            | cons x xs => simp at hlen
      rw [h1]
      dsimp only
      rw [htail]
      rw [bfs_fresh_eval w _ cur hcur rfl hp]
  · intro hlen
    by_cases hp : w.pellets = []
    · have hstop : dfs_get_direction w st = (Direction.STOP, st) := by
        unfold dfs_get_direction
        rw [if_pos hp]
      rw [hstop]
      dsimp only
      rw [hstop]
    · have h1 := dfs_fresh_eval w st cur hcur hempty hp
      have htail : (find_shortest_path_to_pellet w.graph w.pellets
          (some cur)).tail = [] := by
        cases hP : find_shortest_path_to_pellet w.graph w.pellets (some cur)
          with
        | nil => rfl
        | cons d r =>
            rw [hP] at hlen
            simp only [List.length_cons] at hlen
            cases r with
            | nil => rfl
            | cons x xs => simp at hlen
      rw [h1]
      dsimp only
      rw [htail]
      rw [dfs_fresh_eval w _ cur hcur rfl hp]
  · intro hlen
    obtain ⟨h1d, h1s⟩ := astar_fresh_eval w st cur hcur hempty
    obtain ⟨h2d, -⟩ :=
      astar_fresh_eval w (astar_get_direction w st).2 cur hcur (h1s hlen)
    rw [h1d, h2d]

/-- A two-node world whose pellet is one hop away (and not within the goal
radius of the start), so every strategy plans a one-step path. -/
def egShortWorld : World :=
  { graph := ⟨[(((32 : Int), (0 : Int)), mkNode none none none
        (some (160, 0))),
      (((160 : Int), (0 : Int)), mkNode none (some (32, 0)) none none)]⟩,
    pellets := [⟨(160, 0)⟩], ghosts := [],
    pacman := { position := (32, 0), node := some (32, 0), target := none } }

set_option maxRecDepth 16000 in
/-- Witness for the amended C4: in `egShortWorld`, all three agents return
the same direction on two immediate queries from a fresh cache. -/
theorem c4_amended_fresh_deterministic_witness :
    (bfs_get_direction egShortWorld
        (bfs_get_direction egShortWorld initState).2).1 =
      (bfs_get_direction egShortWorld initState).1 ∧
    (dfs_get_direction egShortWorld
        (dfs_get_direction egShortWorld initState).2).1 =
      (dfs_get_direction egShortWorld initState).1 ∧
    (astar_get_direction egShortWorld
        (astar_get_direction egShortWorld initState).2).1 =
      (astar_get_direction egShortWorld initState).1 := by
  obtain ⟨h1, h2, h3⟩ :=
    c4_amended_fresh_deterministic egShortWorld initState (32, 0) rfl rfl
  refine ⟨h1 (by decide), h2 ?_, h3 ?_⟩
  · simp [find_shortest_path_to_pellet, dfs_loop, dfs_expand, get_neighbors,
      lookupNode, egShortWorld, mkNode, DIRECTION_ORDER, is_at_goal, distSq,
      TILEWIDTH]
  · simp [astar_planned_path, select_safest_pellet, select_go,
      pellet_score100, find_path, astar_loop, popMinGo,
      astar_expand, lookupA, reconstruct_path, reconstruct_go, heuristic,
      get_neighbors, lookupNode, egShortWorld, mkNode, DIRECTION_ORDER,
      is_at_goal, distSq, TILEWIDTH, get_ghost_danger]

/-! ### Claim C1 (amended): BFS shortest-path correctness -/

theorem bfs_expand_inl {pellets : List Pellet} {visited : List Pos}
    {path ans : List Direction} {nbrs : List (Pos × Direction)}
    (h : bfs_expand pellets visited path nbrs = .inl ans) :
    ∃ q d, (q, d) ∈ nbrs ∧ q ∉ visited ∧ goalHit pellets q = true ∧
      ans = path ++ [d] := by
  induction nbrs with
  | nil => simp [bfs_expand] at h
  | cons x rest ih =>
      obtain ⟨q, d⟩ := x
      simp only [bfs_expand] at h
      by_cases hv : q ∈ visited
      · rw [if_pos hv] at h
        obtain ⟨q', d', hm, hnv, hg, he⟩ := ih h
        exact ⟨q', d', List.mem_cons_of_mem _ hm, hnv, hg, he⟩
      · rw [if_neg hv] at h
        by_cases hg : goalHit pellets q = true
        · rw [if_pos hg] at h
          injection h with h
          exact ⟨q, d, List.mem_cons_self _ _, hv, hg, h.symm⟩
        · rw [if_neg hg] at h
          cases hrec : bfs_expand pellets visited path rest with
          | inl ans' =>
              rw [hrec] at h
              dsimp only at h
              injection h with h
              obtain ⟨q', d', hm, hnv, hg', he⟩ := ih (by rw [hrec, h])
              exact ⟨q', d', List.mem_cons_of_mem _ hm, hnv, hg', he⟩
          | inr l' =>
              rw [hrec] at h
              dsimp only at h
              exact Sum.noConfusion h

theorem bfs_expand_inr_mem {pellets : List Pellet} {visited : List Pos}
    {path : List Direction} {nbrs : List (Pos × Direction)}
    {l : List (Pos × List Direction)}
    (h : bfs_expand pellets visited path nbrs = .inr l) :
    ∀ e ∈ l, ∃ q d, (q, d) ∈ nbrs ∧ e = (q, path ++ [d]) ∧
      goalHit pellets q = false ∧ q ∉ visited := by
  induction nbrs generalizing l with
  | nil =>
      simp only [bfs_expand] at h
      injection h with h
      subst h
      intro e he
      simp at he
  | cons x rest ih =>
      obtain ⟨q, d⟩ := x
      simp only [bfs_expand] at h
      by_cases hv : q ∈ visited
      · rw [if_pos hv] at h
        intro e he
        obtain ⟨q', d', hm, he', hg, hnv⟩ := ih h e he
        exact ⟨q', d', List.mem_cons_of_mem _ hm, he', hg, hnv⟩
      · rw [if_neg hv] at h
        by_cases hg : goalHit pellets q = true
        · rw [if_pos hg] at h
          exact Sum.noConfusion h
        · rw [if_neg hg] at h
          cases hrec : bfs_expand pellets visited path rest with
          | inl ans' =>
              rw [hrec] at h
              dsimp only at h
              exact Sum.noConfusion h
          | inr l' =>
              rw [hrec] at h
              dsimp only at h
              injection h with h
              subst h
              intro e he
              rcases List.mem_cons.mp he with rfl | he'
              · exact ⟨q, d, List.mem_cons_self _ _, rfl,
                  Bool.not_eq_true _ ▸ hg, hv⟩
              · obtain ⟨q', d', hm, he'', hg', hnv⟩ := ih hrec e he'
                exact ⟨q', d', List.mem_cons_of_mem _ hm, he'', hg', hnv⟩

theorem bfs_expand_inr_cover {pellets : List Pellet} {visited : List Pos}
    {path : List Direction} {nbrs : List (Pos × Direction)}
    {l : List (Pos × List Direction)}
    (h : bfs_expand pellets visited path nbrs = .inr l) :
    ∀ q d, (q, d) ∈ nbrs → q ∈ visited ∨
      (goalHit pellets q = false ∧ (q, path ++ [d]) ∈ l) := by
  induction nbrs generalizing l with
  | nil =>
      intro q d hm
      simp at hm
  | cons x rest ih =>
      obtain ⟨q0, d0⟩ := x
      simp only [bfs_expand] at h
      by_cases hv : q0 ∈ visited
      · rw [if_pos hv] at h
        intro q d hm
        rcases List.mem_cons.mp hm with heq | hm'
        · obtain ⟨rfl, rfl⟩ := Prod.mk.injEq .. |>.mp heq
          exact Or.inl hv
        · exact ih h q d hm'
      · rw [if_neg hv] at h
        by_cases hg : goalHit pellets q0 = true
        · rw [if_pos hg] at h
          exact Sum.noConfusion h
        · rw [if_neg hg] at h
          cases hrec : bfs_expand pellets visited path rest with
          | inl ans' =>
              rw [hrec] at h
              dsimp only at h
              exact Sum.noConfusion h
          | inr l' =>
              rw [hrec] at h
              dsimp only at h
              injection h with h
              subst h
              intro q d hm
              rcases List.mem_cons.mp hm with heq | hm'
              · obtain ⟨rfl, rfl⟩ := Prod.mk.injEq .. |>.mp heq
                exact Or.inr ⟨Bool.not_eq_true _ ▸ hg,
                  List.mem_cons_self _ _⟩
              · rcases ih hrec q d hm' with hin | ⟨hg', hmem⟩
                · exact Or.inl hin
                · exact Or.inr ⟨hg', List.mem_cons_of_mem _ hmem⟩

theorem pairwise_len_const {L : List (Pos × List Direction)} {c : Nat}
    (h : ∀ e ∈ L, e.2.length = c) :
    L.Pairwise (fun a b => a.2.length ≤ b.2.length) := by
  induction L with
  | nil => exact List.Pairwise.nil
  | cons e rest ih =>
      refine List.Pairwise.cons ?_ (ih fun x hx => h x
        (List.mem_cons_of_mem _ hx))
      intro b hb
      rw [h e (List.mem_cons_self _ _), h b (List.mem_cons_of_mem _ hb)]

/-- If the visited set contains the start and is closed under permitted
edges, it contains every reachable node. -/
theorem reach_sub_visited {g : Graph} {s : Pos} {V : List Pos}
    (hs : s ∈ V)
    (hcl : ∀ v ∈ V, ∀ e ∈ get_neighbors g v, e.1 ∈ V) :
    ∀ m q, q ∈ reachSet g s m → q ∈ V := by
  intro m
  induction m with
  | zero =>
      intro q hq
      rw [mem_reachSet_zero] at hq
      exact hq ▸ hs
  | succ n ih =>
      intro q hq
      obtain ⟨r, hr, d, hd⟩ := mem_reachSet_succ.mp hq
      exact hcl r (ih r hr) (q, d) hd

/-- The loop invariant of `bfs_loop`, indexed by the current frontier
level `ℓ`. -/
structure BfsInv (g : Graph) (pellets : List Pellet) (s : Pos)
    (Q : List (Pos × List Direction)) (V : List Pos) (ℓ : Nat) : Prop where
  valid : ∀ e ∈ Q, followPath g s e.2 = some e.1
  lensAB : ∀ e ∈ Q, e.2.length = ℓ ∨ e.2.length = ℓ + 1
  lensMono : Q.Pairwise (fun a b => a.2.length ≤ b.2.length)
  vgoal : ∀ v ∈ V, goalHit pellets v = false
  qgoal : ∀ e ∈ Q, goalHit pellets e.1 = false
  below : ∀ q m, m < ℓ → q ∈ reachSet g s m → q ∈ V
  atLevel : ∀ q, q ∈ reachSet g s ℓ → q ∉ V →
    ∃ π, (q, π) ∈ Q ∧ π.length = ℓ
  closure : ∀ v ∈ V, ∀ e ∈ get_neighbors g v,
    e.1 ∈ V ∨ ∃ π, (e.1, π) ∈ Q
  sMem : s ∈ V

/-- Master correctness of the BFS loop: under the invariant, the result is
no longer than the distance of any reachable goal node, a nonempty result
follows permitted edges to a goal node, and an empty result means no
reachable node satisfies the goal test. -/
theorem bfs_loop_spec (g : Graph) (pellets : List Pellet) (s : Pos)
    (Q : List (Pos × List Direction)) (V : List Pos)
    (hinv : ∃ ℓ, BfsInv g pellets s Q V ℓ) :
    (∀ q m, q ∈ reachSet g s m → goalHit pellets q = true →
      (bfs_loop g pellets Q V).length ≤ m) ∧
    (bfs_loop g pellets Q V = [] ∨
      ∃ q, followPath g s (bfs_loop g pellets Q V) = some q ∧
        goalHit pellets q = true) ∧
    (bfs_loop g pellets Q V = [] →
      ∀ q m, q ∈ reachSet g s m → goalHit pellets q = false) := by
  have contra : ∀ q', goalHit pellets q' = false →
      goalHit pellets q' = true → False := by
    intro q' hf ht
    rw [hf] at ht
    exact Bool.noConfusion ht
  revert hinv
  induction Q, V using bfs_loop.induct g pellets with
  | case1 V =>
      rintro ⟨ℓ, inv⟩
      have hstep : bfs_loop g pellets [] V = [] := by simp [bfs_loop]
      rw [hstep]
      refine ⟨?_, Or.inl rfl, ?_⟩
      · intro q m _ _
        simp
      · intro _ q m hq
        have hcl : ∀ v ∈ V, ∀ e ∈ get_neighbors g v, e.1 ∈ V := by
          intro v hv e he
          rcases inv.closure v hv e he with h | ⟨π, hπ⟩
          · exact h
          · simp at hπ
        exact inv.vgoal q (reach_sub_visited inv.sMem hcl m q hq)
  | case2 p path rest visited hp ih =>
      rintro ⟨ℓ, inv⟩
      have hstep : bfs_loop g pellets ((p, path) :: rest) visited =
          bfs_loop g pellets rest visited := by
        simp only [bfs_loop]
        rw [dif_pos hp]
      rw [hstep]
      apply ih
      refine ⟨ℓ, ?_⟩
      constructor
      case valid =>
        exact fun e he => inv.valid e (List.mem_cons_of_mem _ he)
      case lensAB =>
        exact fun e he => inv.lensAB e (List.mem_cons_of_mem _ he)
      case lensMono =>
        exact inv.lensMono.of_cons
      case vgoal => exact inv.vgoal
      case qgoal =>
        exact fun e he => inv.qgoal e (List.mem_cons_of_mem _ he)
      case below => exact inv.below
      case atLevel =>
        intro q hq hqv
        obtain ⟨π, hπ, hπlen⟩ := inv.atLevel q hq hqv
        rcases List.mem_cons.mp hπ with heq2 | hmem
        · obtain ⟨h1, -⟩ := Prod.mk.injEq .. |>.mp heq2
          exact absurd (h1 ▸ hp) hqv
        · exact ⟨π, hmem, hπlen⟩
      case closure =>
        intro v hv e he
        rcases inv.closure v hv e he with hin | ⟨π, hπ⟩
        · exact Or.inl hin
        · rcases List.mem_cons.mp hπ with heq2 | hmem
          · obtain ⟨h1, -⟩ := Prod.mk.injEq .. |>.mp heq2
            exact Or.inl (h1 ▸ hp)
          · exact Or.inr ⟨π, hmem⟩
      case sMem => exact inv.sMem
  | case3 p path rest visited hp ans heq =>
      rintro ⟨ℓ, inv⟩
      have hstep : bfs_loop g pellets ((p, path) :: rest) visited = ans := by
        simp only [bfs_loop]
        rw [dif_neg hp]
        split
        · rename_i ans' heq'
          rw [heq] at heq'
          injection heq' with h
          exact h.symm
        · rename_i l' heq'
          rw [heq] at heq'
          exact Sum.noConfusion heq'
      rw [hstep]
      obtain ⟨q0, d0, hm0, hnv0, hg0, hans⟩ := bfs_expand_inl heq
      have hvalid_p : followPath g s path = some p :=
        inv.valid (p, path) (List.mem_cons_self _ _)
      have hfollow : followPath g s ans = some q0 := by
        rw [hans]
        exact followPath_snoc.mpr ⟨p, hvalid_p, dirLookup_of_mem hm0⟩
      have hlen_ans : ans.length = path.length + 1 := by
        rw [hans]
        simp
      have hkey : ∀ q m, q ∈ reachSet g s m → goalHit pellets q = true →
          path.length + 1 ≤ m := by
        intro q m hq hg
        by_contra hcon
        push_neg at hcon
        have hmle : m ≤ path.length := Nat.lt_succ_iff.mp hcon
        rcases inv.lensAB (p, path) (List.mem_cons_self _ _) with hAB | hAB
        · simp only at hAB
          have hsplit : m < ℓ ∨ m = ℓ := by omega
          rcases hsplit with hc | hc
          · exact contra q (inv.vgoal q (inv.below q m hc hq)) hg
          · subst hc
            by_cases hqV : q ∈ visited
            · exact contra q (inv.vgoal q hqV) hg
            · obtain ⟨π, hπ, -⟩ := inv.atLevel q hq hqV
              exact contra q (inv.qgoal (q, π) hπ) hg
        · simp only at hAB
          have hall : ∀ e ∈ (p, path) :: rest, e.2.length = ℓ + 1 := by
            intro e he
            rcases List.mem_cons.mp he with rfl | hmem
            · exact hAB
            · rcases inv.lensAB e (List.mem_cons_of_mem _ hmem) with h' | h'
              · have hle := (List.pairwise_cons.mp inv.lensMono).1 e hmem
                simp only at hle
                omega
              · exact h'
          have hlevelsub : ∀ q', q' ∈ reachSet g s ℓ → q' ∈ visited := by
            intro q' hq'
            by_contra hq'V
            obtain ⟨π, hπ, hπlen⟩ := inv.atLevel q' hq' hq'V
            have := hall (q', π) hπ
            simp only at this
            omega
          have hsplit : m < ℓ ∨ m = ℓ ∨ m = ℓ + 1 := by omega
          rcases hsplit with hc | hc | hc
          · exact contra q (inv.vgoal q (inv.below q m hc hq)) hg
          · subst hc
            exact contra q (inv.vgoal q (hlevelsub q hq)) hg
          · subst hc
            obtain ⟨r, hr, d, hd⟩ := mem_reachSet_succ.mp hq
            have hrV := hlevelsub r hr
            rcases inv.closure r hrV (q, d) hd with hqV | ⟨π, hπ⟩
            · exact contra q (inv.vgoal q hqV) hg
            · exact contra q (inv.qgoal (q, π) hπ) hg
      refine ⟨?_, Or.inr ⟨q0, hfollow, hg0⟩, ?_⟩
      · intro q m hq hg
        rw [hlen_ans]
        exact hkey q m hq hg
      · intro habs
        rw [hans] at habs
        exact absurd habs (by simp)
  | case4 p path rest visited hp l heq ih =>
      rintro ⟨ℓ, inv⟩
      have hstep : bfs_loop g pellets ((p, path) :: rest) visited =
          bfs_loop g pellets (rest ++ l) (p :: visited) := by
        simp only [bfs_loop]
        rw [dif_neg hp]
        split
        · rename_i ans' heq'
          rw [heq] at heq'
          exact Sum.noConfusion heq'
        · rename_i l' heq'
          rw [heq] at heq'
          injection heq' with h
          rw [← h]
      rw [hstep]
      apply ih
      have hvalid_p : followPath g s path = some p :=
        inv.valid (p, path) (List.mem_cons_self _ _)
      have hmemlem := bfs_expand_inr_mem heq
      have hcover := bfs_expand_inr_cover heq
      have hgoal_p : goalHit pellets p = false :=
        inv.qgoal (p, path) (List.mem_cons_self _ _)
      have hvalid' : ∀ e ∈ rest ++ l, followPath g s e.2 = some e.1 := by
        intro e he
        rcases List.mem_append.mp he with hm | hm
        · exact inv.valid e (List.mem_cons_of_mem _ hm)
        · obtain ⟨q, d, hqd, rfl, -, -⟩ := hmemlem e hm
          exact followPath_snoc.mpr ⟨p, hvalid_p, dirLookup_of_mem hqd⟩
      have hvgoal' : ∀ v ∈ p :: visited, goalHit pellets v = false := by
        intro v hv
        rcases List.mem_cons.mp hv with rfl | hv'
        · exact hgoal_p
        · exact inv.vgoal v hv'
      have hqgoal' : ∀ e ∈ rest ++ l, goalHit pellets e.1 = false := by
        intro e he
        rcases List.mem_append.mp he with hm | hm
        · exact inv.qgoal e (List.mem_cons_of_mem _ hm)
        · obtain ⟨q, d, -, rfl, hg, -⟩ := hmemlem e hm
          exact hg
      have hclosure' : ∀ v ∈ p :: visited, ∀ e ∈ get_neighbors g v,
          e.1 ∈ p :: visited ∨ ∃ π, (e.1, π) ∈ rest ++ l := by
        intro v hv e he
        obtain ⟨q, d⟩ := e
        rcases List.mem_cons.mp hv with rfl | hv'
        · rcases hcover q d he with hin | ⟨-, hmem⟩
          · exact Or.inl hin
          · exact Or.inr ⟨path ++ [d], List.mem_append.mpr (Or.inr hmem)⟩
        · rcases inv.closure v hv' (q, d) he with hin | ⟨π, hπ⟩
          · exact Or.inl (List.mem_cons_of_mem _ hin)
          · rcases List.mem_cons.mp hπ with heq2 | hmem
            · obtain ⟨h1, -⟩ := Prod.mk.injEq .. |>.mp heq2
              exact Or.inl (h1 ▸ List.mem_cons_self _ _)
            · exact Or.inr ⟨π, List.mem_append.mpr (Or.inl hmem)⟩
      have hsMem' : s ∈ p :: visited := List.mem_cons_of_mem _ inv.sMem
      rcases inv.lensAB (p, path) (List.mem_cons_self _ _) with hAB | hAB
      · simp only at hAB
        refine ⟨ℓ, ?_⟩
        constructor
        case valid => exact hvalid'
        case lensAB =>
          intro e he
          rcases List.mem_append.mp he with hm | hm
          · exact inv.lensAB e (List.mem_cons_of_mem _ hm)
          · obtain ⟨q, d, -, rfl, -, -⟩ := hmemlem e hm
            right
            simp [hAB]
        case lensMono =>
          rw [List.pairwise_append]
          refine ⟨(List.pairwise_cons.mp inv.lensMono).2, ?_, ?_⟩
          · apply pairwise_len_const (c := ℓ + 1)
            intro e he
            obtain ⟨q, d, -, rfl, -, -⟩ := hmemlem e he
            simp [hAB]
          · intro a ha b hb
            obtain ⟨q, d, -, rfl, -, -⟩ := hmemlem b hb
            have hb2 : ((q, path ++ [d]) :
                Pos × List Direction).2.length = ℓ + 1 := by
              simp [hAB]
            rw [hb2]
            rcases inv.lensAB a (List.mem_cons_of_mem _ ha) with h' | h' <;>
              omega
        case vgoal => exact hvgoal'
        case qgoal => exact hqgoal'
        case below =>
          intro q m hm hq
          exact List.mem_cons_of_mem _ (inv.below q m hm hq)
        case atLevel =>
          intro q hq hqv
          have hqV : q ∉ visited := fun h => hqv (List.mem_cons_of_mem _ h)
          obtain ⟨π, hπ, hπlen⟩ := inv.atLevel q hq hqV
          rcases List.mem_cons.mp hπ with heq2 | hmem
          · obtain ⟨h1, -⟩ := Prod.mk.injEq .. |>.mp heq2
            exact absurd (h1 ▸ List.mem_cons_self p visited) hqv
          · exact ⟨π, List.mem_append.mpr (Or.inl hmem), hπlen⟩
        case closure => exact hclosure'
        case sMem => exact hsMem'
      · simp only at hAB
        have hall : ∀ e ∈ (p, path) :: rest, e.2.length = ℓ + 1 := by
          intro e he
          rcases List.mem_cons.mp he with rfl | hmem
          · exact hAB
          · rcases inv.lensAB e (List.mem_cons_of_mem _ hmem) with h' | h'
            · have hle := (List.pairwise_cons.mp inv.lensMono).1 e hmem
              simp only at hle
              omega
            · exact h'
        have hlevelsub : ∀ q', q' ∈ reachSet g s ℓ → q' ∈ visited := by
          intro q' hq'
          by_contra hq'V
          obtain ⟨π, hπ, hπlen⟩ := inv.atLevel q' hq' hq'V
          have := hall (q', π) hπ
          simp only at this
          omega
        refine ⟨ℓ + 1, ?_⟩
        constructor
        case valid => exact hvalid'
        case lensAB =>
          intro e he
          rcases List.mem_append.mp he with hm | hm
          · left
            exact hall e (List.mem_cons_of_mem _ hm)
          · obtain ⟨q, d, -, rfl, -, -⟩ := hmemlem e hm
            right
            simp [hAB]
        case lensMono =>
          rw [List.pairwise_append]
          refine ⟨(List.pairwise_cons.mp inv.lensMono).2, ?_, ?_⟩
          · apply pairwise_len_const (c := ℓ + 2)
            intro e he
            obtain ⟨q, d, -, rfl, -, -⟩ := hmemlem e he
            simp [hAB]
          · intro a ha b hb
            obtain ⟨q, d, -, rfl, -, -⟩ := hmemlem b hb
            have hb2 : ((q, path ++ [d]) :
                Pos × List Direction).2.length = ℓ + 2 := by
              simp [hAB]
            rw [hb2]
            have := hall a (List.mem_cons_of_mem _ ha)
            omega
        case vgoal => exact hvgoal'
        case qgoal => exact hqgoal'
        case below =>
          intro q m hm hq
          have hsplit : m < ℓ ∨ m = ℓ := by omega
          rcases hsplit with hc | hc
          · exact List.mem_cons_of_mem _ (inv.below q m hc hq)
          · subst hc
            exact List.mem_cons_of_mem _ (hlevelsub q hq)
        case atLevel =>
          intro q hq hqv
          obtain ⟨r, hr, d, hd⟩ := mem_reachSet_succ.mp hq
          have hrV := hlevelsub r hr
          rcases inv.closure r hrV (q, d) hd with hqV | ⟨π, hπ⟩
          · exact absurd (List.mem_cons_of_mem _ hqV) hqv
          · rcases List.mem_cons.mp hπ with heq2 | hmem
            · obtain ⟨h1, -⟩ := Prod.mk.injEq .. |>.mp heq2
              exact absurd (h1 ▸ List.mem_cons_self p visited) hqv
            · exact ⟨π, List.mem_append.mpr (Or.inl hmem),
                hall (q, π) (List.mem_cons_of_mem _ hmem)⟩
        case closure => exact hclosure'
        case sMem => exact hsMem'

/-- C1 amended: provided the effective start node does not itself satisfy
the goal test, the BFS path search is optimal: no node satisfying the goal
test for an active pellet is reachable in strictly fewer hops than the
returned path's length, and when some reachable node satisfies the goal
test the returned path follows permitted edges from the start to such a
node (so its length equals the minimal breadth-first hop distance). -/
theorem c1_bfs_shortest (g : Graph) (pellets : List Pellet) (s : Pos)
    (hng : goalHit pellets s = false) :
    (∀ q m, q ∈ reachSet g s m → goalHit pellets q = true →
      (find_path_to_nearest_pellet g pellets (some s)).length ≤ m) ∧
    ((∃ q m, q ∈ reachSet g s m ∧ goalHit pellets q = true) →
      ∃ q, followPath g s
          (find_path_to_nearest_pellet g pellets (some s)) = some q ∧
        goalHit pellets q = true) := by
  have contra : ∀ q', goalHit pellets q' = false →
      goalHit pellets q' = true → False := by
    intro q' hf ht
    rw [hf] at ht
    exact Bool.noConfusion ht
  simp only [find_path_to_nearest_pellet]
  cases hseed : bfs_expand pellets [] [] (get_neighbors g s) with
  | inl ans =>
      obtain ⟨q0, d0, hm0, -, hg0, hans⟩ := bfs_expand_inl hseed
      constructor
      · intro q m hq hg
        rw [hans]
        simp only [List.nil_append, List.length_cons, List.length_nil]
        rcases Nat.eq_zero_or_pos m with rfl | hpos
        · rw [mem_reachSet_zero] at hq
          subst hq
          exact absurd hg (by rw [hng]; exact Bool.noConfusion)
        · exact hpos
      · intro _
        refine ⟨q0, ?_, hg0⟩
        rw [hans]
        exact followPath_snoc.mpr ⟨s, rfl, dirLookup_of_mem hm0⟩
  | inr entries =>
      have hmem := bfs_expand_inr_mem hseed
      have hcover := bfs_expand_inr_cover hseed
      have hinv : BfsInv g pellets s entries [s] 1 := by
        constructor
        case valid =>
          intro e he
          obtain ⟨q, d, hqd, rfl, -, -⟩ := hmem e he
          exact followPath_snoc.mpr ⟨s, rfl, dirLookup_of_mem hqd⟩
        case lensAB =>
          intro e he
          obtain ⟨q, d, -, rfl, -, -⟩ := hmem e he
          left
          simp
        case lensMono =>
          apply pairwise_len_const (c := 1)
          intro e he
          obtain ⟨q, d, -, rfl, -, -⟩ := hmem e he
          simp
        case vgoal =>
          intro v hv
          rw [List.mem_singleton.mp hv]
          exact hng
        case qgoal =>
          intro e he
          obtain ⟨q, d, -, rfl, hg, -⟩ := hmem e he
          exact hg
        case below =>
          intro q m hm hq
          have hm0 : m = 0 := by omega
          subst hm0
          rw [mem_reachSet_zero] at hq
          subst hq
          exact List.mem_singleton.mpr rfl
        case atLevel =>
          intro q hq _
          obtain ⟨r, hr, d, hd⟩ := mem_reachSet_succ.mp hq
          rw [mem_reachSet_zero] at hr
          subst hr
          rcases hcover q d hd with hin | ⟨-, hmem'⟩
          · simp at hin
          · exact ⟨[] ++ [d], hmem', by simp⟩
        case closure =>
          intro v hv e he
          obtain ⟨q, d⟩ := e
          rw [List.mem_singleton.mp hv] at he
          rcases hcover q d he with hin | ⟨-, hmem'⟩
          · simp at hin
          · exact Or.inr ⟨[] ++ [d], hmem'⟩
        case sMem => exact List.mem_singleton.mpr rfl
      obtain ⟨hopt, hsound, hcomp⟩ :=
        bfs_loop_spec g pellets s entries [s] ⟨1, hinv⟩
      refine ⟨hopt, ?_⟩
      rintro ⟨q, m, hq, hg⟩
      rcases hsound with hnil | hok
      · exact absurd (hcomp hnil q m hq) (by
          intro hf
          exact contra q hf hg)
      · exact hok

/-- Witness for the amended C1: in `egShortWorld` the start is not at the
goal, the pellet node is reachable in one hop, and the returned path is
optimal and lands on a goal-test node. -/
theorem c1_bfs_shortest_witness :
    (((160 : Int), (0 : Int)) ∈ reachSet egShortWorld.graph (32, 0) 1 ∧
      goalHit egShortWorld.pellets (160, 0) = true ∧
      (find_path_to_nearest_pellet egShortWorld.graph egShortWorld.pellets
        (some (32, 0))).length ≤ 1) ∧
    ∃ q, followPath egShortWorld.graph (32, 0)
        (find_path_to_nearest_pellet egShortWorld.graph
          egShortWorld.pellets (some (32, 0))) = some q ∧
      goalHit egShortWorld.pellets q = true := by
  obtain ⟨hopt, hach⟩ := c1_bfs_shortest egShortWorld.graph
    egShortWorld.pellets (32, 0) (by decide)
  exact ⟨⟨by decide, by decide, hopt (160, 0) 1 (by decide) (by decide)⟩,
    hach ⟨(160, 0), 1, by decide, by decide⟩⟩

end PacAI
